import Mathlib

/-!
Verification of the buddy-system allocator in `buddySystem.cxx`.

The C++ class `Buddy` is a binary tree: each object carries `memStart`
(base address of its block), `memLength` (bytes in use when it is a
leaf), `size` (the order: capacity is `BASE_SIZE * 2 ^ size`), a
`terminal` flag (true means the node has been split and owns two
children) and child pointers.  We embed the tree as an inductive type
with a `leaf` constructor for unsplit nodes (`terminal = false`) and a
`node` constructor for split nodes (`terminal = true`).  Addresses are
natural numbers (byte offsets); the mutating member functions become
functions from trees to trees, with `Buddy::check`'s returned pointer
represented both as the pointed-to subtree (`check`) and as the path
from the root to it (`checkPath`), which is what `Buddy::allocate`
needs in order to update the tree through the pointer.
-/

/-- MAX_MEMORY_OFFSET from the source: size of the demo memory space, 1 MB. -/
def MAX_MEMORY_OFFSET : Nat := 1048576

/-- BASE_SIZE from the source: minimum size of a memory block, 64 KB. -/
def BASE_SIZE : Nat := 65536

/-- Conversion `size_t sizeToBytes(int)` from the source:
`BASE_SIZE * pow(2, size)`.  The source computes the power in floating
point; every call site passes a non-negative, small `size`, where the
double computation is exact, so we use `Nat`. -/
def sizeToBytes (size : Nat) : Nat := BASE_SIZE * 2 ^ size

/-- The `while (num < numBytes) { size++; num = num * 2; }` loop of
`int bytesToSize(size_t)` from the source.  The loop is embedded
structurally with an explicit iteration bound (first argument); since
`num` starts at `1` and doubles each iteration, `numBytes` iterations
always suffice, and `bytesToSize` supplies exactly that bound, so the
fuel never runs out on any input. -/
def btsLoop : Nat → Nat → Nat → Nat → Nat
  | 0, _, _, size => size
  | fuel + 1, numBytes, num, size =>
    if num < numBytes then btsLoop fuel numBytes (num * 2) (size + 1) else size

/-- Conversion `int bytesToSize(size_t)` from the source: starting from
`size = 0`, `num = 1`, double `num` until it reaches `numBytes`, then
return `size - 16` (as a C `int`, so the result may be negative; we use
`Int`). -/
def bytesToSize (numBytes : Nat) : Int := (btsLoop numBytes numBytes 1 0 : Int) - 16

/-- The `Buddy` tree.  `leaf p len s` is an object with
`terminal = false`, `memStart = p`, `memLength = len`, `size = s`;
`node p len s l r` is an object with `terminal = true` and children
`l` and `r`. -/
inductive Buddy : Type where
  | leaf (memStart memLength size : Nat) : Buddy
  | node (memStart memLength size : Nat) (left right : Buddy) : Buddy
deriving DecidableEq, Repr

namespace Buddy

/-- Getter `Buddy::getLocation`: the `memStart` field. -/
def memStart : Buddy → Nat
  | leaf p _ _ => p
  | node p _ _ _ _ => p

/-- Getter `Buddy::getLength`: the `memLength` field. -/
def getLength : Buddy → Nat
  | leaf _ len _ => len
  | node _ len _ _ _ => len

/-- The `size` field (the order of the block). -/
def size : Buddy → Nat
  | leaf _ _ s => s
  | node _ _ s _ _ => s

/-- Getter `Buddy::isTerminal`: the `terminal` flag (true iff split). -/
def isTerminal : Buddy → Bool
  | leaf _ _ _ => false
  | node _ _ _ _ _ => true

/-- Getter `Buddy::getMaxLength`: `sizeToBytes(size)`. -/
def getMaxLength (t : Buddy) : Nat := sizeToBytes t.size

/-- Setter `Buddy::setLength`. -/
def setLength : Buddy → Nat → Buddy
  | leaf p _ s, n => leaf p n s
  | node p _ s l r, n => node p n s l r

/-- Method `Buddy::split` from the source: creates a left child at the
same base and a right child at `memStart + sizeToBytes(size - 1)`, both
of order `size - 1` and with no memory in use, and sets `terminal`.
The source only ever calls it on unsplit leaves; on a split node we
return the node unchanged. -/
def split : Buddy → Buddy
  | leaf p len s =>
      node p len s (leaf p 0 (s - 1)) (leaf (p + sizeToBytes (s - 1)) 0 (s - 1))
  | t => t

/-- Method `Buddy::merge` from the source: deletes both children and
clears `terminal`, leaving the other fields unchanged. -/
def merge : Buddy → Buddy
  | node p len s _ _ => leaf p len s
  | t => t

end Buddy

/-- Method `Buddy* Buddy::check(size_t)` from the source: if
`size < bytesToSize(numBytes)` or `memLength != 0` there is no valid
location in this subtree; otherwise an unsplit node is itself the
result, and a split node recurses into the left child first and into
the right child only when the left one yields nothing. -/
def check : Buddy → Nat → Option Buddy
  | Buddy.leaf p len s, numBytes =>
      if (s : Int) < bytesToSize numBytes ∨ len ≠ 0 then none
      else some (Buddy.leaf p len s)
  | Buddy.node _ len s l r, numBytes =>
      if (s : Int) < bytesToSize numBytes ∨ len ≠ 0 then none
      else
        match check l numBytes with
        | some c => some c
        | none => check r numBytes

/-- The same search as `check`, but returning the path from the root to
the found node (`false` = left child, `true` = right child) instead of
a pointer to it.  `Buddy::allocate` mutates the tree through the
pointer returned by `check`; in the functional embedding the path is
what lets `allocate` rebuild the tree around the found node. -/
def checkPath : Buddy → Nat → Option (List Bool)
  | Buddy.leaf _ len s, numBytes =>
      if (s : Int) < bytesToSize numBytes ∨ len ≠ 0 then none
      else some []
  | Buddy.node _ len s l r, numBytes =>
      if (s : Int) < bytesToSize numBytes ∨ len ≠ 0 then none
      else
        match checkPath l numBytes with
        | some q => some (false :: q)
        | none => (checkPath r numBytes).map (fun q => true :: q)

/-- The subtree of `t` reached by following a path (`false` = left).
On a path that runs past a leaf we stop at the leaf; all uses are on
valid paths. -/
def getAt : Buddy → List Bool → Buddy
  | t, [] => t
  | Buddy.node _ _ _ l r, d :: q => getAt (if d then r else l) q
  | t, _ :: _ => t

/-- Replace the subtree of `t` at the given path. -/
def replaceAt : Buddy → List Bool → Buddy → Buddy
  | _, [], u => u
  | Buddy.node p len s l r, d :: q, u =>
      if d then Buddy.node p len s l (replaceAt r q u)
      else Buddy.node p len s (replaceAt l q u) r
  | t, _ :: _, _ => t

/-- Whether a path leads to an actual node of the tree. -/
def validPath : Buddy → List Bool → Bool
  | _, [] => true
  | Buddy.node _ _ _ l r, d :: q => validPath (if d then r else l) q
  | _, _ :: _ => false

/-- The `while (location->getMaxLength() > numBytes*2 &&
bytesToSize(location->getMaxLength()) > 0) { location->split();
location = location->getLeft(); }` loop of `Buddy::allocate`, together
with the final `location->setLength(numBytes)`, acting on the candidate
leaf returned by `check` (which is always an unsplit leaf with
`memLength = 0`; `p` and `s` are its base address and order).  The
result is the subtree that replaces the candidate.  The structural
recursion is on `s`; at `s = 0` the loop guard is necessarily false
(`bytesToSize (sizeToBytes 0) = 0`), so that case returns the leaf
directly, exactly as the loop would. -/
def allocLoop (p numBytes : Nat) : Nat → Buddy
  | 0 => Buddy.leaf p numBytes 0
  | s1 + 1 =>
    if sizeToBytes (s1 + 1) > numBytes * 2 ∧ 0 < bytesToSize (sizeToBytes (s1 + 1)) then
      Buddy.node p 0 (s1 + 1) (allocLoop p numBytes s1)
        (Buddy.leaf (p + sizeToBytes s1) 0 s1)
    else Buddy.leaf p numBytes (s1 + 1)

/-- Method `void * Buddy::allocate(size_t, void *)` from the source:
find the leftmost unallocated terminal block that can hold the data
(`check`); if there is none return `NULL` (modelled as `none`) and
leave the tree untouched; otherwise split the block until it is small
enough, store the data in the left-most descendant (`memcpy` is pure
data movement and is not modelled; the bookkeeping `setLength` is) and
return its address.  The result pairs the returned address with the
updated tree. -/
def allocate (t : Buddy) (numBytes : Nat) : Option Nat × Buddy :=
  match checkPath t numBytes with
  | none => (none, t)
  | some q =>
      let c := getAt t q
      (some c.memStart, replaceAt t q (allocLoop c.memStart numBytes c.size))

/-- Method `bool Buddy::release(void *)` from the source, returning the
success flag together with the updated tree.  At an unsplit node the
address either matches `memStart` (deallocate, report success) or the
call fails.  At a split node: if the address equals `memStart`, the
left child holds it (release it directly when the left child is
unsplit, otherwise recurse); if it equals the right child's base, same
on the right; otherwise recurse left and, only if that fails, recurse
right.  After the branch, the node merges its children when both are
unsplit with no memory in use — exactly the check the source performs
once per unwind level. -/
def release : Buddy → Nat → Bool × Buddy
  | Buddy.leaf p len s, a =>
      if a = p then (true, Buddy.leaf p 0 s)
      else (false, Buddy.leaf p len s)
  | Buddy.node p len s l r, a =>
      let step : Bool × Buddy × Buddy :=
        if a = p then
          if l.isTerminal = false then (true, l.setLength 0, r)
          else
            let res := release l a
            (res.1, res.2, r)
        else if a = r.memStart then
          if r.isTerminal = false then (true, l, r.setLength 0)
          else
            let res := release r a
            (res.1, l, res.2)
        else
          let resL := release l a
          if resL.1 then (true, resL.2, r)
          else
            let resR := release r a
            (resR.1, resL.2, resR.2)
      let l2 := step.2.1
      let r2 := step.2.2
      if r2.getLength = 0 ∧ r2.isTerminal = false ∧ l2.getLength = 0 ∧ l2.isTerminal = false
      then (step.1, (Buddy.node p len s l2 r2).merge)
      else (step.1, Buddy.node p len s l2 r2)

/-- A sequence of top-level `release` calls, one per listed address. -/
def releaseList (t : Buddy) (bs : List Nat) : Buddy :=
  bs.foldl (fun s a => (release s a).2) t

/-- The in-order list of `(memStart, memLength, size)` of the occupied
leaves (unsplit nodes with `memLength ≠ 0`). -/
def occupiedLeaves : Buddy → List (Nat × Nat × Nat)
  | Buddy.leaf p len s => if len ≠ 0 then [(p, len, s)] else []
  | Buddy.node _ _ _ l r => occupiedLeaves l ++ occupiedLeaves r

/-- The in-order list of base addresses of the leaves. -/
def leafBases : Buddy → List Nat
  | Buddy.leaf p _ _ => [p]
  | Buddy.node _ _ _ l r => leafBases l ++ leafBases r

/-- The in-order list of `(base, capacity)` of the leaves. -/
def leafSpans : Buddy → List (Nat × Nat)
  | Buddy.leaf p _ s => [(p, sizeToBytes s)]
  | Buddy.node _ _ _ l r => leafSpans l ++ leafSpans r

/-- The in-order list of `(base, capacity)` of the free leaves
(unsplit nodes with `memLength = 0`). -/
def freeSpans : Buddy → List (Nat × Nat)
  | Buddy.leaf p len s => if len = 0 then [(p, sizeToBytes s)] else []
  | Buddy.node _ _ _ l r => freeSpans l ++ freeSpans r

/-- The total number of bytes in use over all leaves. -/
def sumUsed : Buddy → Nat
  | Buddy.leaf _ len _ => len
  | Buddy.node _ _ _ l r => sumUsed l + sumUsed r

/-- The capacity of the leaf whose base address is `a`, if any
(leftmost first, matching the tree's address order). -/
def leafCapAt : Buddy → Nat → Option Nat
  | Buddy.leaf p _ s, a => if p = a then some (sizeToBytes s) else none
  | Buddy.node _ _ _ l r, a =>
      match leafCapAt l a with
      | some c => some c
      | none => leafCapAt r a

/-- Structural well-formedness maintained by the allocator: a leaf's
used length fits its capacity; a split node has positive order, carries
`memLength = 0`, and its children sit at the two halves of its block
with order one less. -/
def wfb : Buddy → Bool
  | Buddy.leaf _ len s => decide (len ≤ sizeToBytes s)
  | Buddy.node p len s l r =>
      decide (0 < s) && decide (len = 0) &&
      decide (l.memStart = p) && decide (l.size = s - 1) &&
      decide (r.memStart = p + sizeToBytes (s - 1)) && decide (r.size = s - 1) &&
      wfb l && wfb r

/-- No split node has two children that are both unsplit with no memory
in use — i.e. nowhere does the merge condition of `Buddy::release`
hold. -/
def maxMergedB : Buddy → Bool
  | Buddy.leaf _ _ _ => true
  | Buddy.node _ _ _ l r =>
      !(decide (r.getLength = 0) && !r.isTerminal &&
        decide (l.getLength = 0) && !l.isTerminal) &&
      maxMergedB l && maxMergedB r

/-- Every split node carries `memLength = 0`. -/
def splitNodesFree : Buddy → Bool
  | Buddy.leaf _ _ _ => true
  | Buddy.node _ len _ l r => decide (len = 0) && splitNodesFree l && splitNodesFree r

/-- The in-order list of paths to all unsplit, unoccupied leaves whose
capacity is at least `numBytes` — the candidates `Buddy::check`
chooses among, left-most first. -/
def candidates : Buddy → Nat → List (List Bool)
  | Buddy.leaf _ len s, numBytes =>
      if len = 0 ∧ numBytes ≤ sizeToBytes s then [[]] else []
  | Buddy.node _ _ _ l r, numBytes =>
      (candidates l numBytes).map (fun q => false :: q) ++
      (candidates r numBytes).map (fun q => true :: q)

/-- Tree states reachable from a freshly constructed `Buddy` through
any sequence of `allocate` and `release` calls, with arbitrary request
sizes (the member functions themselves accept any `size_t`). -/
inductive Reachable : Buddy → Prop where
  | init (memBegin width : Nat) : Reachable (Buddy.leaf memBegin 0 width)
  | alloc {t : Buddy} (numBytes : Nat) : Reachable t → Reachable (allocate t numBytes).2
  | rel {t : Buddy} (a : Nat) : Reachable t → Reachable (release t a).2

/-- Tree states reachable when every allocation requests at least one
byte, as the demo driver in `main` enforces. -/
inductive ReachablePos : Buddy → Prop where
  | init (memBegin width : Nat) : ReachablePos (Buddy.leaf memBegin 0 width)
  | alloc {t : Buddy} (numBytes : Nat) (h : 1 ≤ numBytes) :
      ReachablePos t → ReachablePos (allocate t numBytes).2
  | rel {t : Buddy} (a : Nat) : ReachablePos t → ReachablePos (release t a).2

/-! ### Arithmetic facts about the size conversions -/

theorem sizeToBytes_eq_pow (s : Nat) : sizeToBytes s = 2 ^ (16 + s) := by
  simp [sizeToBytes, BASE_SIZE, pow_add]

theorem sizeToBytes_pos (s : Nat) : 0 < sizeToBytes s := by
  rw [sizeToBytes_eq_pow]; exact Nat.pos_pow_of_pos _ (by norm_num)

theorem sizeToBytes_succ (s : Nat) : sizeToBytes (s + 1) = 2 * sizeToBytes s := by
  simp [sizeToBytes, pow_succ]; ring

theorem sizeToBytes_mono {s t : Nat} (h : s ≤ t) : sizeToBytes s ≤ sizeToBytes t := by
  rw [sizeToBytes_eq_pow, sizeToBytes_eq_pow]
  exact Nat.pow_le_pow_right (by norm_num) (by omega)

theorem btsLoop_spec (numBytes : Nat) :
    ∀ fuel num size, 1 ≤ num → numBytes ≤ num * 2 ^ fuel →
      numBytes ≤ num * 2 ^ (btsLoop fuel numBytes num size - size) ∧
      size ≤ btsLoop fuel numBytes num size ∧
      (size < btsLoop fuel numBytes num size →
        num * 2 ^ (btsLoop fuel numBytes num size - size - 1) < numBytes) := by
  intro fuel
  induction fuel with
  | zero =>
    intro num size h1 h2
    simp only [btsLoop, Nat.sub_self, pow_zero, mul_one] at h2 ⊢
    exact ⟨h2, le_refl _, by omega⟩
  | succ fuel ih =>
    intro num size h1 h2
    simp only [btsLoop]
    by_cases hlt : num < numBytes
    · simp only [if_pos hlt]
      have h2' : numBytes ≤ num * 2 * 2 ^ fuel := by
        rw [mul_assoc]
        calc numBytes ≤ num * 2 ^ (fuel + 1) := h2
        _ = num * (2 * 2 ^ fuel) := by rw [pow_succ]; ring_nf
      obtain ⟨ha, hb, hc⟩ := ih (num * 2) (size + 1) (by omega) h2'
      set r := btsLoop fuel numBytes (num * 2) (size + 1) with hr
      have hd : size + 1 ≤ r := hb
      have hsub : r - size = (r - (size + 1)) + 1 := by omega
      refine ⟨?_, by omega, ?_⟩
      · rw [hsub, pow_succ]
        calc numBytes ≤ num * 2 * 2 ^ (r - (size + 1)) := ha
        _ = num * (2 ^ (r - (size + 1)) * 2) := by ring
      · intro _
        have he : r - size - 1 = r - (size + 1) := by omega
        rw [he]
        by_cases hz : size + 1 < r
        · have := hc hz
          have hf : r - (size + 1) = (r - (size + 1) - 1) + 1 := by omega
          rw [hf, pow_succ]
          calc num * (2 ^ (r - (size + 1) - 1) * 2) = num * 2 * 2 ^ (r - (size + 1) - 1) := by ring
          _ < numBytes := this
        · have : r = size + 1 := by omega
          simp [this]
          omega
    · simp only [if_neg hlt]
      have hnb : numBytes ≤ num := by omega
      refine ⟨?_, le_refl _, by omega⟩
      simpa [Nat.sub_self] using hnb

theorem btsLoop_min (b : Nat) :
    b ≤ 2 ^ btsLoop b b 1 0 ∧ ∀ s : Nat, b ≤ 2 ^ s → btsLoop b b 1 0 ≤ s := by
  have hfuel : b ≤ 1 * 2 ^ b := by
    simpa using Nat.le_of_lt (Nat.lt_two_pow b)
  obtain ⟨ha, _, hc⟩ := btsLoop_spec b b 1 0 (le_refl 1) hfuel
  simp only [one_mul, Nat.sub_zero] at ha hc
  refine ⟨ha, ?_⟩
  intro s hs
  by_cases h0 : 0 < btsLoop b b 1 0
  · have := hc h0
    have hlt : 2 ^ (btsLoop b b 1 0 - 1) < 2 ^ s := lt_of_lt_of_le this hs
    have := (Nat.pow_lt_pow_iff_right (by norm_num : 1 < 2)).mp hlt
    omega
  · omega

theorem bytesToSize_le_iff (b s : Nat) : bytesToSize b ≤ (s : Int) ↔ b ≤ sizeToBytes s := by
  obtain ⟨ha, hmin⟩ := btsLoop_min b
  rw [sizeToBytes_eq_pow, bytesToSize]
  constructor
  · intro h
    have hL : btsLoop b b 1 0 ≤ 16 + s := by omega
    calc b ≤ 2 ^ btsLoop b b 1 0 := ha
    _ ≤ 2 ^ (16 + s) := Nat.pow_le_pow_right (by norm_num) hL
  · intro h
    have := hmin (16 + s) h
    omega

theorem bytesToSize_sizeToBytes (s : Nat) : bytesToSize (sizeToBytes s) = (s : Int) := by
  obtain ⟨ha, hmin⟩ := btsLoop_min (sizeToBytes s)
  have h1 : btsLoop (sizeToBytes s) (sizeToBytes s) 1 0 ≤ 16 + s :=
    hmin (16 + s) (le_of_eq (sizeToBytes_eq_pow s))
  have h2 : 16 + s ≤ btsLoop (sizeToBytes s) (sizeToBytes s) 1 0 := by
    have ha2 : 2 ^ (16 + s) ≤ 2 ^ btsLoop (sizeToBytes s) (sizeToBytes s) 1 0 :=
      le_trans (le_of_eq (sizeToBytes_eq_pow s).symm) ha
    exact (Nat.pow_le_pow_iff_right (by norm_num : 1 < 2)).mp ha2
  rw [bytesToSize]
  omega

theorem bytesToSize_mono {b c : Nat} (h : b ≤ c) : bytesToSize b ≤ bytesToSize c := by
  obtain ⟨ha, _⟩ := btsLoop_min c
  obtain ⟨_, hmin⟩ := btsLoop_min b
  have := hmin _ (le_trans h ha)
  rw [bytesToSize, bytesToSize]
  omega

theorem bytesToSize_nonneg_16 (b : Nat) : (-16 : Int) ≤ bytesToSize b := by
  rw [bytesToSize]; omega

/-! ### Small structural lemmas -/

@[simp] theorem Buddy.memStart_leaf {p len s : Nat} : (Buddy.leaf p len s).memStart = p := rfl

@[simp] theorem Buddy.memStart_node {p len s : Nat} {l r : Buddy} :
    (Buddy.node p len s l r).memStart = p := rfl

@[simp] theorem Buddy.getLength_leaf {p len s : Nat} : (Buddy.leaf p len s).getLength = len := rfl

@[simp] theorem Buddy.getLength_node {p len s : Nat} {l r : Buddy} :
    (Buddy.node p len s l r).getLength = len := rfl

@[simp] theorem Buddy.size_leaf {p len s : Nat} : (Buddy.leaf p len s).size = s := rfl

@[simp] theorem Buddy.size_node {p len s : Nat} {l r : Buddy} :
    (Buddy.node p len s l r).size = s := rfl

@[simp] theorem Buddy.isTerminal_leaf {p len s : Nat} :
    (Buddy.leaf p len s).isTerminal = false := rfl

@[simp] theorem Buddy.isTerminal_node {p len s : Nat} {l r : Buddy} :
    (Buddy.node p len s l r).isTerminal = true := rfl

@[simp] theorem Buddy.setLength_leaf {p len s n : Nat} :
    (Buddy.leaf p len s).setLength n = Buddy.leaf p n s := rfl

@[simp] theorem Buddy.setLength_node {p len s n : Nat} {l r : Buddy} :
    (Buddy.node p len s l r).setLength n = Buddy.node p n s l r := rfl

@[simp] theorem Buddy.merge_node {p len s : Nat} {l r : Buddy} :
    (Buddy.node p len s l r).merge = Buddy.leaf p len s := rfl

theorem Buddy.eq_leaf_of_not_terminal {t : Buddy} (h : t.isTerminal = false) :
    t = Buddy.leaf t.memStart t.getLength t.size := by
  cases t with
  | leaf p len s => rfl
  | node p len s l r => simp [Buddy.isTerminal] at h

theorem sizeToBytes_split {s : Nat} (h : 0 < s) :
    sizeToBytes s = sizeToBytes (s - 1) + sizeToBytes (s - 1) := by
  have h1 : sizeToBytes ((s - 1) + 1) = 2 * sizeToBytes (s - 1) := sizeToBytes_succ (s - 1)
  have h2 : (s - 1) + 1 = s := by omega
  rw [h2] at h1
  omega

theorem wfb_leaf {p len s : Nat} : wfb (Buddy.leaf p len s) = true ↔ len ≤ sizeToBytes s := by
  simp [wfb]

theorem wfb_node {p len s : Nat} {l r : Buddy} :
    wfb (Buddy.node p len s l r) = true ↔
      0 < s ∧ len = 0 ∧ l.memStart = p ∧ l.size = s - 1 ∧
      r.memStart = p + sizeToBytes (s - 1) ∧ r.size = s - 1 ∧
      wfb l = true ∧ wfb r = true := by
  simp [wfb, and_assoc]

/-! ### Path lemmas -/

@[simp] theorem getAt_nil {t : Buddy} : getAt t [] = t := by cases t <;> rfl

@[simp] theorem getAt_cons_false {p len s : Nat} {l r : Buddy} {q : List Bool} :
    getAt (Buddy.node p len s l r) (false :: q) = getAt l q := by simp [getAt]

@[simp] theorem getAt_cons_true {p len s : Nat} {l r : Buddy} {q : List Bool} :
    getAt (Buddy.node p len s l r) (true :: q) = getAt r q := by simp [getAt]

@[simp] theorem validPath_nil {t : Buddy} : validPath t [] = true := by cases t <;> rfl

@[simp] theorem validPath_cons_false {p len s : Nat} {l r : Buddy} {q : List Bool} :
    validPath (Buddy.node p len s l r) (false :: q) = validPath l q := by simp [validPath]

@[simp] theorem validPath_cons_true {p len s : Nat} {l r : Buddy} {q : List Bool} :
    validPath (Buddy.node p len s l r) (true :: q) = validPath r q := by simp [validPath]

@[simp] theorem validPath_leaf_cons {p len s : Nat} {d : Bool} {q : List Bool} :
    validPath (Buddy.leaf p len s) (d :: q) = false := by simp [validPath]

@[simp] theorem replaceAt_nil {t u : Buddy} : replaceAt t [] u = u := by cases t <;> rfl

@[simp] theorem replaceAt_cons_false {p len s : Nat} {l r u : Buddy} {q : List Bool} :
    replaceAt (Buddy.node p len s l r) (false :: q) u =
      Buddy.node p len s (replaceAt l q u) r := by simp [replaceAt]

@[simp] theorem replaceAt_cons_true {p len s : Nat} {l r u : Buddy} {q : List Bool} :
    replaceAt (Buddy.node p len s l r) (true :: q) u =
      Buddy.node p len s l (replaceAt r q u) := by simp [replaceAt]

theorem replaceAt_memStart_size {u : Buddy} :
    ∀ q t, validPath t q = true →
      u.memStart = (getAt t q).memStart → u.size = (getAt t q).size →
      (replaceAt t q u).memStart = t.memStart ∧ (replaceAt t q u).size = t.size := by
  intro q
  induction q with
  | nil => intro t _ h1 h2; simp [h1, h2]
  | cons d q ih =>
    intro t hv h1 h2
    cases t with
    | leaf p len s => simp at hv
    | node p len s l r => cases d <;> simp

theorem replaceAt_wf {u : Buddy} :
    ∀ q t, wfb t = true → validPath t q = true → wfb u = true →
      u.memStart = (getAt t q).memStart → u.size = (getAt t q).size →
      wfb (replaceAt t q u) = true := by
  intro q
  induction q with
  | nil => intro t _ _ hu _ _; simpa using hu
  | cons d q ih =>
    intro t hw hv hu h1 h2
    cases t with
    | leaf p len s => simp at hv
    | node p len s l r =>
      rw [wfb_node] at hw
      obtain ⟨hs, hlen, hlb, hls, hrb, hrs, hwl, hwr⟩ := hw
      cases d
      · simp only [validPath_cons_false] at hv
        simp only [getAt_cons_false] at h1 h2
        simp only [replaceAt_cons_false]
        rw [wfb_node]
        obtain ⟨e1, e2⟩ := replaceAt_memStart_size q l hv h1 h2
        exact ⟨hs, hlen, by rw [e1, hlb], by rw [e2, hls], hrb, hrs, ih l hwl hv hu h1 h2, hwr⟩
      · simp only [validPath_cons_true] at hv
        simp only [getAt_cons_true] at h1 h2
        simp only [replaceAt_cons_true]
        rw [wfb_node]
        obtain ⟨e1, e2⟩ := replaceAt_memStart_size q r hv h1 h2
        exact ⟨hs, hlen, hlb, hls, by rw [e1, hrb], by rw [e2, hrs], hwl, ih r hwr hv hu h1 h2⟩

/-! ### Bounds of leaves inside a well-formed tree -/

theorem leafBases_bounds {t : Buddy} (h : wfb t = true) :
    ∀ x ∈ leafBases t, t.memStart ≤ x ∧ x < t.memStart + sizeToBytes t.size := by
  induction t with
  | leaf p len s =>
    intro x hx
    simp [leafBases] at hx
    subst hx
    simp [sizeToBytes_pos]
  | node p len s l r ihl ihr =>
    rw [wfb_node] at h
    obtain ⟨hs, _, hlb, hls, hrb, hrs, hwl, hwr⟩ := h
    have hsum := sizeToBytes_split hs
    intro x hx
    simp only [leafBases, List.mem_append] at hx
    rcases hx with hx | hx
    · have := ihl hwl x hx
      rw [hlb, hls] at this
      simp only [Buddy.memStart_node, Buddy.size_node]
      omega
    · have := ihr hwr x hx
      rw [hrb, hrs] at this
      simp only [Buddy.memStart_node, Buddy.size_node]
      omega

theorem memStart_mem_leafBases {t : Buddy} (h : wfb t = true) :
    t.memStart ∈ leafBases t := by
  induction t with
  | leaf p len s => simp [leafBases]
  | node p len s l r ihl ihr =>
    rw [wfb_node] at h
    obtain ⟨_, _, hlb, _, _, _, hwl, _⟩ := h
    simp only [leafBases, List.mem_append, Buddy.memStart_node]
    left
    have := ihl hwl
    rwa [hlb] at this

theorem occ_mem_bounds {t : Buddy} (h : wfb t = true) :
    ∀ e ∈ occupiedLeaves t,
      t.memStart ≤ e.1 ∧ e.1 + sizeToBytes e.2.2 ≤ t.memStart + sizeToBytes t.size ∧
      e.2.1 ≠ 0 := by
  induction t with
  | leaf p len s =>
    intro e he
    simp only [occupiedLeaves] at he
    by_cases hl : len ≠ 0
    · simp [hl] at he
      subst he
      simpa using hl
    · simp [hl] at he
  | node p len s l r ihl ihr =>
    rw [wfb_node] at h
    obtain ⟨hs, _, hlb, hls, hrb, hrs, hwl, hwr⟩ := h
    have hsum := sizeToBytes_split hs
    intro e he
    simp only [occupiedLeaves, List.mem_append] at he
    rcases he with he | he
    · have := ihl hwl e he
      rw [hlb, hls] at this
      simp only [Buddy.memStart_node, Buddy.size_node]
      omega
    · have := ihr hwr e he
      rw [hrb, hrs] at this
      simp only [Buddy.memStart_node, Buddy.size_node]
      omega

theorem occ_base_mem_leafBases {t : Buddy} :
    ∀ e ∈ occupiedLeaves t, e.1 ∈ leafBases t := by
  induction t with
  | leaf p len s =>
    intro e he
    by_cases hl : len ≠ 0 <;> simp [occupiedLeaves, hl] at he
    subst he
    simp [leafBases]
  | node p len s l r ihl ihr =>
    intro e he
    simp only [occupiedLeaves, List.mem_append] at he
    simp only [leafBases, List.mem_append]
    rcases he with he | he
    · exact Or.inl (ihl e he)
    · exact Or.inr (ihr e he)

/-! ### The split loop of allocate -/

theorem allocLoop_base_size (p b : Nat) :
    ∀ s, (allocLoop p b s).memStart = p ∧ (allocLoop p b s).size = s := by
  intro s
  cases s with
  | zero => simp [allocLoop]
  | succ s1 =>
    rw [allocLoop]
    split
    · simp
    · simp

theorem allocLoop_wf (p b : Nat) :
    ∀ s, b ≤ sizeToBytes s → wfb (allocLoop p b s) = true := by
  intro s
  induction s with
  | zero =>
    intro hb
    rw [allocLoop, wfb_leaf]
    exact hb
  | succ s1 ih =>
    intro hb
    rw [allocLoop]
    split
    · rename_i hcond
      rw [wfb_node]
      obtain ⟨h1, h2⟩ := allocLoop_base_size p b s1
      have hble : b ≤ sizeToBytes s1 := by
        rw [sizeToBytes_succ] at hcond
        omega
      refine ⟨by omega, rfl, h1, by simpa using h2, ?_, by simp, ih hble, ?_⟩
      · simp
      · rw [wfb_leaf]
        simp
    · rw [wfb_leaf]
      exact hb

theorem checkPath_sound {b : Nat} :
    ∀ t q, checkPath t b = some q →
      validPath t q = true ∧
      ∃ p s, getAt t q = Buddy.leaf p 0 s ∧ b ≤ sizeToBytes s := by
  intro t
  induction t with
  | leaf p len s =>
    intro q hq
    rw [checkPath] at hq
    split at hq
    · exact absurd hq (by simp)
    · rename_i hcond
      push_neg at hcond
      obtain ⟨h1, h2⟩ := hcond
      simp only [Option.some.injEq] at hq
      subst hq
      refine ⟨by simp, p, s, ?_, ?_⟩
      · simp [h2]
      · rw [← bytesToSize_le_iff]
        omega
  | node p len s l r ihl ihr =>
    intro q hq
    rw [checkPath] at hq
    split at hq
    · exact absurd hq (by simp)
    · revert hq
      split
      · rename_i q1 hq1
        intro hq
        simp only [Option.some.injEq] at hq
        subst hq
        obtain ⟨hv, p1, s1, hg, hb1⟩ := ihl q1 hq1
        exact ⟨by simpa using hv, p1, s1, by simpa using hg, hb1⟩
      · rename_i hq1
        intro hq
        simp only [Option.map_eq_some'] at hq
        obtain ⟨q2, hq2, rfl⟩ := hq
        obtain ⟨hv, p2, s2, hg, hb2⟩ := ihr q2 hq2
        exact ⟨by simpa using hv, p2, s2, by simpa using hg, hb2⟩

theorem allocate_wf {t : Buddy} (h : wfb t = true) (b : Nat) :
    wfb (allocate t b).2 = true := by
  rw [allocate]
  cases hcp : checkPath t b with
  | none => simpa using h
  | some q =>
    simp only
    obtain ⟨hv, p0, s0, hg, hb0⟩ := checkPath_sound t q hcp
    have hms : (getAt t q).memStart = p0 := by rw [hg]; rfl
    have hsz : (getAt t q).size = s0 := by rw [hg]; rfl
    rw [hms, hsz]
    obtain ⟨e1, e2⟩ := allocLoop_base_size p0 b s0
    exact replaceAt_wf q t h hv (allocLoop_wf p0 b s0 hb0) (by rw [e1, hms]) (by rw [e2, hsz])

/-! ### Case analysis of release at a split node -/

theorem release_node_step (p len s : Nat) (l r : Buddy) (a : Nat) :
    ∃ (rv : Bool) (l2 r2 : Buddy),
      release (Buddy.node p len s l r) a =
        (rv,
          if r2.getLength = 0 ∧ r2.isTerminal = false ∧ l2.getLength = 0 ∧ l2.isTerminal = false
          then Buddy.leaf p len s
          else Buddy.node p len s l2 r2) ∧
      ((a = p ∧ l.isTerminal = false ∧ rv = true ∧ l2 = l.setLength 0 ∧ r2 = r) ∨
       (a = p ∧ l.isTerminal = true ∧
         rv = (release l a).1 ∧ l2 = (release l a).2 ∧ r2 = r) ∨
       (a ≠ p ∧ a = r.memStart ∧ r.isTerminal = false ∧
         rv = true ∧ l2 = l ∧ r2 = r.setLength 0) ∨
       (a ≠ p ∧ a = r.memStart ∧ r.isTerminal = true ∧
         rv = (release r a).1 ∧ l2 = l ∧ r2 = (release r a).2) ∨
       (a ≠ p ∧ a ≠ r.memStart ∧ (release l a).1 = true ∧
         rv = true ∧ l2 = (release l a).2 ∧ r2 = r) ∨
       (a ≠ p ∧ a ≠ r.memStart ∧ (release l a).1 = false ∧
         rv = (release r a).1 ∧ l2 = (release l a).2 ∧ r2 = (release r a).2)) := by
  by_cases h1 : a = p
  · by_cases h2 : l.isTerminal = false
    · refine ⟨true, l.setLength 0, r, ?_, Or.inl ⟨h1, h2, rfl, rfl, rfl⟩⟩
      subst h1
      simp [release, h2]
      split <;> rfl
    · have h2' : l.isTerminal = true := by revert h2; cases l.isTerminal <;> simp
      refine ⟨(release l a).1, (release l a).2, r, ?_,
        Or.inr (Or.inl ⟨h1, h2', rfl, rfl, rfl⟩)⟩
      subst h1
      simp [release, h2']
      split <;> rfl
  · by_cases h3 : a = r.memStart
    · by_cases h4 : r.isTerminal = false
      · refine ⟨true, l, r.setLength 0, ?_,
          Or.inr (Or.inr (Or.inl ⟨h1, h3, h4, rfl, rfl, rfl⟩))⟩
        subst h3
        simp [release, h1, h4]
        split <;> rfl
      · have h4' : r.isTerminal = true := by revert h4; cases r.isTerminal <;> simp
        refine ⟨(release r a).1, l, (release r a).2, ?_,
          Or.inr (Or.inr (Or.inr (Or.inl ⟨h1, h3, h4', rfl, rfl, rfl⟩)))⟩
        subst h3
        simp [release, h1, h4']
        split <;> rfl
    · by_cases h5 : (release l a).1 = true
      · refine ⟨true, (release l a).2, r, ?_,
          Or.inr (Or.inr (Or.inr (Or.inr (Or.inl ⟨h1, h3, h5, rfl, rfl, rfl⟩))))⟩
        simp [release, h1, h3, h5]
        split <;> rfl
      · have h5' : (release l a).1 = false := by revert h5; cases (release l a).1 <;> simp
        refine ⟨(release r a).1, (release l a).2, (release r a).2, ?_,
          Or.inr (Or.inr (Or.inr (Or.inr (Or.inr ⟨h1, h3, h5', rfl, rfl, rfl⟩))))⟩
        simp [release, h1, h3, h5']
        split <;> rfl

/-! ### Properties of release -/

theorem setLength_zero_leafish {u : Buddy} (h : u.isTerminal = false) :
    wfb (u.setLength 0) = true ∧ (u.setLength 0).memStart = u.memStart ∧
    (u.setLength 0).size = u.size ∧ (u.setLength 0).isTerminal = false := by
  cases u with
  | leaf p len s =>
    refine ⟨?_, rfl, rfl, rfl⟩
    rw [Buddy.setLength_leaf, wfb_leaf]
    exact Nat.zero_le _
  | node p len s l r => simp at h

theorem release_fields (t : Buddy) (a : Nat) :
    (release t a).2.memStart = t.memStart ∧ (release t a).2.size = t.size := by
  cases t with
  | leaf p len s =>
    simp only [release]
    split <;> simp
  | node p len s l r =>
    obtain ⟨rv, l2, r2, heq, _⟩ := release_node_step p len s l r a
    rw [heq]
    split <;> simp

theorem release_wf (a : Nat) : ∀ t : Buddy, wfb t = true → wfb (release t a).2 = true := by
  intro t
  induction t with
  | leaf p len s =>
    intro h
    simp only [release]
    split
    · rw [wfb_leaf]; exact Nat.zero_le _
    · exact h
  | node p len s l r ihl ihr =>
    intro h
    rw [wfb_node] at h
    obtain ⟨hs, hlen, hlb, hls, hrb, hrs, hwl, hwr⟩ := h
    obtain ⟨rv, l2, r2, heq, hcases⟩ := release_node_step p len s l r a
    have hl2 : wfb l2 = true ∧ l2.memStart = l.memStart ∧ l2.size = l.size := by
      rcases hcases with ⟨_, hlt, _, he, _⟩ | ⟨_, _, _, he, _⟩ | ⟨_, _, _, _, he, _⟩ |
        ⟨_, _, _, _, he, _⟩ | ⟨_, _, _, _, he, _⟩ | ⟨_, _, _, _, he, _⟩
      · obtain ⟨w1, w2, w3, _⟩ := setLength_zero_leafish hlt
        exact ⟨he ▸ w1, he ▸ w2, he ▸ w3⟩
      · obtain ⟨f1, f2⟩ := release_fields l a
        exact ⟨he ▸ ihl hwl, he ▸ f1, he ▸ f2⟩
      · exact ⟨he ▸ hwl, he ▸ rfl, he ▸ rfl⟩
      · exact ⟨he ▸ hwl, he ▸ rfl, he ▸ rfl⟩
      · obtain ⟨f1, f2⟩ := release_fields l a
        exact ⟨he ▸ ihl hwl, he ▸ f1, he ▸ f2⟩
      · obtain ⟨f1, f2⟩ := release_fields l a
        exact ⟨he ▸ ihl hwl, he ▸ f1, he ▸ f2⟩
    have hr2 : wfb r2 = true ∧ r2.memStart = r.memStart ∧ r2.size = r.size := by
      rcases hcases with ⟨_, _, _, _, he⟩ | ⟨_, _, _, _, he⟩ | ⟨_, _, hrt, _, _, he⟩ |
        ⟨_, _, _, _, _, he⟩ | ⟨_, _, _, _, _, he⟩ | ⟨_, _, _, _, _, he⟩
      · exact ⟨he ▸ hwr, he ▸ rfl, he ▸ rfl⟩
      · exact ⟨he ▸ hwr, he ▸ rfl, he ▸ rfl⟩
      · obtain ⟨w1, w2, w3, _⟩ := setLength_zero_leafish hrt
        exact ⟨he ▸ w1, he ▸ w2, he ▸ w3⟩
      · obtain ⟨f1, f2⟩ := release_fields r a
        exact ⟨he ▸ ihr hwr, he ▸ f1, he ▸ f2⟩
      · exact ⟨he ▸ hwr, he ▸ rfl, he ▸ rfl⟩
      · obtain ⟨f1, f2⟩ := release_fields r a
        exact ⟨he ▸ ihr hwr, he ▸ f1, he ▸ f2⟩
    rw [heq]
    split
    · rw [wfb_leaf]
      subst hlen
      exact Nat.zero_le _
    · rw [wfb_node]
      exact ⟨hs, hlen, by rw [hl2.2.1, hlb], by rw [hl2.2.2, hls],
        by rw [hr2.2.1, hrb], by rw [hr2.2.2, hrs], hl2.1, hr2.1⟩

theorem release_true_iff (a : Nat) :
    ∀ t, wfb t = true → ((release t a).1 = true ↔ a ∈ leafBases t) := by
  intro t
  induction t with
  | leaf p len s =>
    intro _
    simp only [release, leafBases]
    split
    · rename_i hap
      subst hap
      simp
    · rename_i hap
      simp [hap]
  | node p len s l r ihl ihr =>
    intro h
    rw [wfb_node] at h
    obtain ⟨hs, hlen, hlb, hls, hrb, hrs, hwl, hwr⟩ := h
    obtain ⟨rv, l2, r2, heq, hcases⟩ := release_node_step p len s l r a
    have hfst : (release (Buddy.node p len s l r) a).1 = rv := by rw [heq]
    rw [hfst]
    simp only [leafBases, List.mem_append]
    rcases hcases with ⟨hap, _, hrv, _, _⟩ | ⟨hap, _, hrv, _, _⟩ | ⟨_, har, _, hrv, _, _⟩ |
      ⟨_, har, _, hrv, _, _⟩ | ⟨_, _, hrel, hrv, _, _⟩ | ⟨hap, har, hrel, hrv, _, _⟩
    · subst hap
      simp only [hrv, true_iff]
      left
      exact hlb ▸ memStart_mem_leafBases hwl
    · subst hap
      have hlt : (release l a).1 = true := by
        rw [ihl hwl]
        exact hlb ▸ memStart_mem_leafBases hwl
      rw [hrv, hlt]
      simp only [true_iff]
      left
      exact hlb ▸ memStart_mem_leafBases hwl
    · subst har
      simp only [hrv, true_iff]
      right
      exact memStart_mem_leafBases hwr
    · subst har
      have : (release r r.memStart).1 = true := by
        rw [ihr hwr]
        exact memStart_mem_leafBases hwr
      rw [hrv, this]
      simp only [true_iff]
      right
      exact memStart_mem_leafBases hwr
    · rw [hrv]
      simp only [true_iff]
      left
      exact (ihl hwl).mp hrel
    · rw [hrv, ihr hwr]
      have hnl : ¬ a ∈ leafBases l := by
        rw [← ihl hwl]
        simp [hrel]
      constructor
      · intro hr2
        exact Or.inr hr2
      · intro hor
        rcases hor with hl2 | hr2
        · exact absurd hl2 hnl
        · exact hr2

theorem occ_of_free {u : Buddy} (h1 : u.isTerminal = false) (h2 : u.getLength = 0) :
    occupiedLeaves u = [] := by
  cases u with
  | leaf p len s =>
    simp only [Buddy.getLength_leaf] at h2
    simp [occupiedLeaves, h2]
  | node p len s l r => simp at h1

theorem filter_ne_of_forall {xs : List (Nat × Nat × Nat)} {a : Nat}
    (h : ∀ e ∈ xs, e.1 ≠ a) : xs.filter (fun e => decide (e.1 ≠ a)) = xs := by
  rw [List.filter_eq_self]
  intro e he
  simpa using h e he

theorem occ_filter_lt {xs : List (Nat × Nat × Nat)} {a : Nat}
    (h : ∀ e ∈ xs, e.1 < a) : xs.filter (fun e => decide (e.1 ≠ a)) = xs :=
  filter_ne_of_forall (fun e he => Nat.ne_of_lt (h e he))

theorem occ_filter_gt {xs : List (Nat × Nat × Nat)} {a : Nat}
    (h : ∀ e ∈ xs, a < e.1) : xs.filter (fun e => decide (e.1 ≠ a)) = xs :=
  filter_ne_of_forall (fun e he => (Nat.ne_of_lt (h e he)).symm)

theorem release_occ (a : Nat) : ∀ t, wfb t = true →
    occupiedLeaves (release t a).2 =
      (occupiedLeaves t).filter (fun e => decide (e.1 ≠ a)) := by
  intro t
  induction t with
  | leaf p len s =>
    intro _
    simp only [release]
    split
    · rename_i hap
      subst hap
      by_cases hl : len = 0 <;> simp [occupiedLeaves, hl]
    · rename_i hap
      by_cases hl : len = 0 <;> simp [occupiedLeaves, hl, Ne.symm hap]
  | node p len s l r ihl ihr =>
    intro h
    rw [wfb_node] at h
    obtain ⟨hs, hlen, hlb, hls, hrb, hrs, hwl, hwr⟩ := h
    obtain ⟨rv, l2, r2, heq, hcases⟩ := release_node_step p len s l r a
    have hsnd : (release (Buddy.node p len s l r) a).2 =
        (if r2.getLength = 0 ∧ r2.isTerminal = false ∧ l2.getLength = 0 ∧ l2.isTerminal = false
         then Buddy.leaf p len s
         else Buddy.node p len s l2 r2) := by rw [heq]
    rw [hsnd]
    have hcapl : sizeToBytes l.size = sizeToBytes (s - 1) := by rw [hls]
    have hrbase : r.memStart = p + sizeToBytes (s - 1) := hrb
    have hlcover : ∀ e ∈ occupiedLeaves l, e.1 < r.memStart := by
      intro e he
      obtain ⟨b1, b2, _⟩ := occ_mem_bounds hwl e he
      have hp : 0 < sizeToBytes e.2.2 := sizeToBytes_pos _
      rw [hlb] at b1
      rw [hlb, hls] at b2
      omega
    have hrcover : ∀ e ∈ occupiedLeaves r, p < e.1 ∧ r.memStart ≤ e.1 := by
      intro e he
      obtain ⟨b1, _, _⟩ := occ_mem_bounds hwr e he
      have hp : 0 < sizeToBytes (s - 1) := sizeToBytes_pos _
      rw [hrb] at b1
      constructor
      · omega
      · rw [hrb]; omega
    have hoccl2 : occupiedLeaves l2 = (occupiedLeaves l).filter (fun e => decide (e.1 ≠ a)) := by
      rcases hcases with ⟨hap, hlt, _, he, _⟩ | ⟨hap, _, _, he, _⟩ | ⟨_, har, _, _, he, _⟩ |
        ⟨_, har, _, _, he, _⟩ | ⟨_, _, _, _, he, _⟩ | ⟨_, _, _, _, he, _⟩
      · subst hap
        rw [he]
        obtain ⟨_, _, _, w4⟩ := setLength_zero_leafish hlt
        rw [occ_of_free w4 (by cases l <;> simp_all)]
        cases l with
        | leaf pl lenl sl =>
          simp only [Buddy.memStart_leaf] at hlb
          subst hlb
          by_cases hl0 : lenl = 0 <;> simp [occupiedLeaves, hl0]
        | node _ _ _ _ _ => simp at hlt
      · subst hap
        rw [he]
        exact ihl hwl
      · subst har
        rw [he]
        exact (occ_filter_lt (fun e he2 => hlcover e he2)).symm
      · subst har
        rw [he]
        exact (occ_filter_lt (fun e he2 => hlcover e he2)).symm
      · rw [he]
        exact ihl hwl
      · rw [he]
        exact ihl hwl
    have hoccr2 : occupiedLeaves r2 = (occupiedLeaves r).filter (fun e => decide (e.1 ≠ a)) := by
      rcases hcases with ⟨hap, _, _, _, he⟩ | ⟨hap, _, _, _, he⟩ | ⟨_, har, hrt, _, _, he⟩ |
        ⟨_, har, _, _, _, he⟩ | ⟨_, _, hrel, _, _, he⟩ | ⟨_, _, _, _, _, he⟩
      · subst hap
        rw [he]
        exact (occ_filter_gt (fun e he2 => (hrcover e he2).1)).symm
      · subst hap
        rw [he]
        exact (occ_filter_gt (fun e he2 => (hrcover e he2).1)).symm
      · subst har
        rw [he]
        obtain ⟨_, _, _, w4⟩ := setLength_zero_leafish hrt
        rw [occ_of_free w4 (by cases r <;> simp_all)]
        cases r with
        | leaf pr lenr sr =>
          by_cases hr0 : lenr = 0 <;> simp [occupiedLeaves, hr0]
        | node _ _ _ _ _ => simp at hrt
      · subst har
        rw [he]
        exact ihr hwr
      · rw [he]
        have hmem : a ∈ leafBases l := (release_true_iff a l hwl).mp hrel
        obtain ⟨c1, c2⟩ := leafBases_bounds hwl a hmem
        rw [hlb, hls] at c2
        refine (occ_filter_gt ?_).symm
        intro e he2
        have := (hrcover e he2).2
        rw [hrb] at this
        omega
      · rw [he]
        exact ihr hwr
    have hrhs : (occupiedLeaves (Buddy.node p len s l r)).filter (fun e => decide (e.1 ≠ a)) =
        occupiedLeaves l2 ++ occupiedLeaves r2 := by
      simp only [occupiedLeaves, List.filter_append]
      rw [hoccl2, hoccr2]
    split
    · rename_i hcond
      obtain ⟨c1, c2, c3, c4⟩ := hcond
      rw [hrhs, occ_of_free c4 c3, occ_of_free c2 c1]
      subst hlen
      simp [occupiedLeaves]
    · rw [hrhs]
      simp [occupiedLeaves]

/-! ### Maximal mergedness -/

theorem maxMergedB_leaf {p len s : Nat} : maxMergedB (Buddy.leaf p len s) = true := rfl

theorem maxMergedB_node {p len s : Nat} {l r : Buddy} :
    maxMergedB (Buddy.node p len s l r) = true ↔
      ¬(r.getLength = 0 ∧ r.isTerminal = false ∧ l.getLength = 0 ∧ l.isTerminal = false) ∧
      maxMergedB l = true ∧ maxMergedB r = true := by
  cases hrt : r.isTerminal <;> cases hlt : l.isTerminal <;>
    by_cases h1 : r.getLength = 0 <;> by_cases h2 : l.getLength = 0 <;>
      simp [maxMergedB, hrt, hlt, h1, h2]

theorem maxMergedB_setLength_zero {u : Buddy} (h : u.isTerminal = false) :
    maxMergedB (u.setLength 0) = true := by
  cases u with
  | leaf _ _ _ => rfl
  | node _ _ _ _ _ => simp at h

theorem release_maxMerged (a : Nat) :
    ∀ t, maxMergedB t = true → maxMergedB (release t a).2 = true := by
  intro t
  induction t with
  | leaf p len s =>
    intro _
    simp only [release]
    split <;> rfl
  | node p len s l r ihl ihr =>
    intro h
    rw [maxMergedB_node] at h
    obtain ⟨_, hml, hmr⟩ := h
    obtain ⟨rv, l2, r2, heq, hcases⟩ := release_node_step p len s l r a
    have hsnd : (release (Buddy.node p len s l r) a).2 =
        (if r2.getLength = 0 ∧ r2.isTerminal = false ∧ l2.getLength = 0 ∧ l2.isTerminal = false
         then Buddy.leaf p len s
         else Buddy.node p len s l2 r2) := by rw [heq]
    rw [hsnd]
    have hml2 : maxMergedB l2 = true := by
      rcases hcases with ⟨_, hlt, _, he, _⟩ | ⟨_, _, _, he, _⟩ | ⟨_, _, _, _, he, _⟩ |
        ⟨_, _, _, _, he, _⟩ | ⟨_, _, _, _, he, _⟩ | ⟨_, _, _, _, he, _⟩
      · rw [he]; exact maxMergedB_setLength_zero hlt
      · rw [he]; exact ihl hml
      · rw [he]; exact hml
      · rw [he]; exact hml
      · rw [he]; exact ihl hml
      · rw [he]; exact ihl hml
    have hmr2 : maxMergedB r2 = true := by
      rcases hcases with ⟨_, _, _, _, he⟩ | ⟨_, _, _, _, he⟩ | ⟨_, _, hrt, _, _, he⟩ |
        ⟨_, _, _, _, _, he⟩ | ⟨_, _, _, _, _, he⟩ | ⟨_, _, _, _, _, he⟩
      · rw [he]; exact hmr
      · rw [he]; exact hmr
      · rw [he]; exact maxMergedB_setLength_zero hrt
      · rw [he]; exact ihr hmr
      · rw [he]; exact hmr
      · rw [he]; exact ihr hmr
    split
    · rfl
    · rename_i hcond
      rw [maxMergedB_node]
      exact ⟨hcond, hml2, hmr2⟩

theorem release_fail_id (a : Nat) :
    ∀ t, wfb t = true → maxMergedB t = true → (release t a).1 = false →
      (release t a).2 = t := by
  intro t
  induction t with
  | leaf p len s =>
    intro _ _ hfail
    simp only [release] at hfail ⊢
    split
    · rename_i hap
      rw [if_pos hap] at hfail
      simp at hfail
    · rfl
  | node p len s l r ihl ihr =>
    intro hw hm hfail
    rw [wfb_node] at hw
    obtain ⟨hs, hlen, hlb, hls, hrb, hrs, hwl, hwr⟩ := hw
    rw [maxMergedB_node] at hm
    obtain ⟨hcond, hml, hmr⟩ := hm
    obtain ⟨rv, l2, r2, heq, hcases⟩ := release_node_step p len s l r a
    have hfst : rv = false := by
      have : (release (Buddy.node p len s l r) a).1 = rv := by rw [heq]
      rw [this] at hfail
      exact hfail
    have hsnd : (release (Buddy.node p len s l r) a).2 =
        (if r2.getLength = 0 ∧ r2.isTerminal = false ∧ l2.getLength = 0 ∧ l2.isTerminal = false
         then Buddy.leaf p len s
         else Buddy.node p len s l2 r2) := by rw [heq]
    rcases hcases with ⟨_, _, hrv, _, _⟩ | ⟨hap, _, hrv, hel, her⟩ | ⟨_, _, _, hrv, _, _⟩ |
      ⟨_, har, _, hrv, hel, her⟩ | ⟨_, _, _, hrv, _, _⟩ | ⟨_, _, hlf, hrv, hel, her⟩
    · rw [hrv] at hfst; simp at hfst
    · subst hap
      have : (release l a).1 = true := by
        rw [release_true_iff a l hwl]
        exact hlb ▸ memStart_mem_leafBases hwl
      rw [hrv, this] at hfst
      simp at hfst
    · rw [hrv] at hfst; simp at hfst
    · subst har
      have : (release r r.memStart).1 = true := by
        rw [release_true_iff r.memStart r hwr]
        exact memStart_mem_leafBases hwr
      rw [hrv, this] at hfst
      simp at hfst
    · rw [hrv] at hfst; simp at hfst
    · have hrf : (release r a).1 = false := by rw [← hrv]; exact hfst
      have hl2 : l2 = l := by rw [hel, ihl hwl hml hlf]
      have hr2 : r2 = r := by rw [her, ihr hwr hmr hrf]
      rw [hsnd, hl2, hr2, if_neg hcond]

theorem allocLoop_not_free {p b : Nat} (hb : 1 ≤ b) :
    ∀ s, (allocLoop p b s).isTerminal = true ∨ (allocLoop p b s).getLength ≠ 0 := by
  intro s
  cases s with
  | zero =>
    right
    simp only [allocLoop, Buddy.getLength_leaf]
    omega
  | succ s1 =>
    rw [allocLoop]
    split
    · left; rfl
    · right
      simp only [Buddy.getLength_leaf]
      omega

theorem allocLoop_maxMerged {p b : Nat} (hb : 1 ≤ b) :
    ∀ s, maxMergedB (allocLoop p b s) = true := by
  intro s
  induction s with
  | zero => rfl
  | succ s1 ih =>
    rw [allocLoop]
    split
    · rw [maxMergedB_node]
      refine ⟨?_, ih, rfl⟩
      rintro ⟨_, _, c3, c4⟩
      rcases allocLoop_not_free hb s1 with hc | hc
      · rw [hc] at c4; simp at c4
      · exact hc c3
    · rfl

theorem replaceAt_not_free {t u : Buddy} {q : List Bool}
    (hv : validPath t q = true) (hu : u.isTerminal = true ∨ u.getLength ≠ 0) :
    (replaceAt t q u).isTerminal = true ∨ (replaceAt t q u).getLength ≠ 0 := by
  cases q with
  | nil => simpa using hu
  | cons d q1 =>
    cases t with
    | leaf _ _ _ => simp at hv
    | node p len s l r =>
      cases d
      · left; simp
      · left; simp

theorem replaceAt_maxMerged {u : Buddy} :
    ∀ q t, maxMergedB t = true → validPath t q = true → maxMergedB u = true →
      (u.isTerminal = true ∨ u.getLength ≠ 0) →
      maxMergedB (replaceAt t q u) = true := by
  intro q
  induction q with
  | nil => intro t _ _ hu _; simpa using hu
  | cons d q1 ih =>
    intro t hm hv hu hnf
    cases t with
    | leaf _ _ _ => simp at hv
    | node p len s l r =>
      rw [maxMergedB_node] at hm
      obtain ⟨_, hml, hmr⟩ := hm
      cases d
      · simp only [validPath_cons_false] at hv
        simp only [replaceAt_cons_false]
        rw [maxMergedB_node]
        refine ⟨?_, ih l hml hv hu hnf, hmr⟩
        rintro ⟨_, _, c3, c4⟩
        rcases replaceAt_not_free hv hnf with hc | hc
        · rw [hc] at c4; simp at c4
        · exact hc c3
      · simp only [validPath_cons_true] at hv
        simp only [replaceAt_cons_true]
        rw [maxMergedB_node]
        refine ⟨?_, hml, ih r hmr hv hu hnf⟩
        rintro ⟨c1, c2, _, _⟩
        rcases replaceAt_not_free hv hnf with hc | hc
        · rw [hc] at c2; simp at c2
        · exact hc c1

theorem allocate_maxMerged {t : Buddy} (hm : maxMergedB t = true) {b : Nat} (hb : 1 ≤ b) :
    maxMergedB (allocate t b).2 = true := by
  rw [allocate]
  cases hcp : checkPath t b with
  | none => simpa using hm
  | some q =>
    simp only
    obtain ⟨hv, p0, s0, hg, _⟩ := checkPath_sound t q hcp
    exact replaceAt_maxMerged q t hm hv (allocLoop_maxMerged hb _)
      (allocLoop_not_free hb _)

/-! ### Reachability invariants -/

theorem reachable_wf {t : Buddy} (h : Reachable t) : wfb t = true := by
  induction h with
  | init p w =>
    rw [wfb_leaf]
    exact Nat.zero_le _
  | alloc b _ ih => exact allocate_wf ih b
  | rel a _ ih => exact release_wf a _ ih

theorem reachablePos_reachable {t : Buddy} (h : ReachablePos t) : Reachable t := by
  induction h with
  | init p w => exact Reachable.init p w
  | alloc b _ _ ih => exact Reachable.alloc b ih
  | rel a _ ih => exact Reachable.rel a ih

theorem reachablePos_maxMerged {t : Buddy} (h : ReachablePos t) : maxMergedB t = true := by
  induction h with
  | init p w => rfl
  | alloc b hb _ ih => exact allocate_maxMerged ih hb
  | rel a _ ih => exact release_maxMerged a _ ih

/-! ### The search as a choice among candidates -/

theorem candidates_empty_of_small {b : Nat} :
    ∀ u, wfb u = true → (u.size : Int) < bytesToSize b → candidates u b = [] := by
  intro u
  induction u with
  | leaf p len s =>
    intro _ hsz
    simp only [Buddy.size_leaf] at hsz
    have : ¬ b ≤ sizeToBytes s := by
      rw [← bytesToSize_le_iff]
      omega
    simp [candidates, this]
  | node p len s l r ihl ihr =>
    intro hw hsz
    rw [wfb_node] at hw
    obtain ⟨hs, _, _, hls, _, hrs, hwl, hwr⟩ := hw
    simp only [Buddy.size_node] at hsz
    have hlsz : (l.size : Int) < bytesToSize b := by
      rw [hls]
      have : ((s - 1 : Nat) : Int) ≤ (s : Int) := by
        have : (s - 1 : Nat) ≤ s := Nat.sub_le s 1
        exact_mod_cast this
      omega
    have hrsz : (r.size : Int) < bytesToSize b := by
      rw [hrs]
      have : ((s - 1 : Nat) : Int) ≤ (s : Int) := by
        have : (s - 1 : Nat) ≤ s := Nat.sub_le s 1
        exact_mod_cast this
      omega
    simp [candidates, ihl hwl hlsz, ihr hwr hrsz]

theorem checkPath_eq_head_candidates {b : Nat} :
    ∀ t, wfb t = true → checkPath t b = (candidates t b).head? := by
  intro t
  induction t with
  | leaf p len s =>
    intro hw
    rw [wfb_leaf] at hw
    rw [checkPath]
    split
    · rename_i hcond
      rcases hcond with hsz | hlen
      · have : ¬ b ≤ sizeToBytes s := by
          rw [← bytesToSize_le_iff]
          omega
        simp [candidates, this]
      · simp [candidates, hlen]
    · rename_i hcond
      push_neg at hcond
      obtain ⟨hsz, hlen⟩ := hcond
      have : b ≤ sizeToBytes s := by
        rw [← bytesToSize_le_iff]
        omega
      simp [candidates, hlen, this]
  | node p len s l r ihl ihr =>
    intro hw
    have hw' := hw
    rw [wfb_node] at hw'
    obtain ⟨hs, hlen, _, hls, _, hrs, hwl, hwr⟩ := hw'
    rw [checkPath]
    split
    · rename_i hcond
      rcases hcond with hsz | hl0
      · have hlsz : (l.size : Int) < bytesToSize b := by
          rw [hls]
          have : ((s - 1 : Nat) : Int) ≤ (s : Int) := by
            have : (s - 1 : Nat) ≤ s := Nat.sub_le s 1
            exact_mod_cast this
          omega
        have hrsz : (r.size : Int) < bytesToSize b := by
          rw [hrs]
          have : ((s - 1 : Nat) : Int) ≤ (s : Int) := by
            have : (s - 1 : Nat) ≤ s := Nat.sub_le s 1
            exact_mod_cast this
          omega
        simp [candidates, candidates_empty_of_small l hwl hlsz,
          candidates_empty_of_small r hwr hrsz]
      · exact absurd hlen hl0
    · simp only [candidates]
      cases hcl : candidates l b with
      | cons c0 rest =>
        have : checkPath l b = some c0 := by rw [ihl hwl, hcl]; rfl
        simp [this, hcl]
      | nil =>
        have hnone : checkPath l b = none := by rw [ihl hwl, hcl]; rfl
        rw [hnone]
        simp only [hcl, List.map_nil, List.nil_append]
        cases hcr : candidates r b with
        | cons c0 rest =>
          have : checkPath r b = some c0 := by rw [ihr hwr, hcr]; rfl
          simp [this, hcr]
        | nil =>
          have : checkPath r b = none := by rw [ihr hwr, hcr]; rfl
          simp [this, hcr]

theorem check_eq_getAt_checkPath {b : Nat} :
    ∀ t, check t b = (checkPath t b).map (fun q => getAt t q) := by
  intro t
  induction t with
  | leaf p len s =>
    rw [check, checkPath]
    split
    · rfl
    · rfl
  | node p len s l r ihl ihr =>
    rw [check, checkPath]
    split
    · rfl
    · cases hcl : checkPath l b with
      | some q1 =>
        rw [ihl, hcl]
        simp
      | none =>
        rw [ihl, hcl]
        simp only [Option.map_none']
        cases hcr : checkPath r b with
        | some q2 =>
          rw [ihr, hcr]
          simp
        | none =>
          rw [ihr, hcr]
          simp

theorem candidates_ne_nil_of_freeSpan {b : Nat} :
    ∀ u, ∀ e ∈ freeSpans u, b ≤ e.2 → candidates u b ≠ [] := by
  intro u
  induction u with
  | leaf p len s =>
    intro e he hb
    by_cases hl : len = 0
    · simp [freeSpans, hl] at he
      subst he
      simp only at hb
      simp [candidates, hl, hb]
    · simp [freeSpans, hl] at he
  | node p len s l r ihl ihr =>
    intro e he hb
    simp only [freeSpans, List.mem_append] at he
    simp only [candidates]
    rcases he with he | he
    · have := ihl e he hb
      intro hcontra
      rcases List.append_eq_nil.mp hcontra with ⟨h1, _⟩
      exact this (List.map_eq_nil.mp h1)
    · have := ihr e he hb
      intro hcontra
      rcases List.append_eq_nil.mp hcontra with ⟨_, h2⟩
      exact this (List.map_eq_nil.mp h2)

/-! ### Span bounds and the occupancy sum -/

theorem sumUsed_le_cap : ∀ t, wfb t = true → sumUsed t ≤ sizeToBytes t.size := by
  intro t
  induction t with
  | leaf p len s =>
    intro h
    rw [wfb_leaf] at h
    simpa [sumUsed] using h
  | node p len s l r ihl ihr =>
    intro h
    rw [wfb_node] at h
    obtain ⟨hs, _, _, hls, _, hrs, hwl, hwr⟩ := h
    have h1 := ihl hwl
    have h2 := ihr hwr
    rw [hls] at h1
    rw [hrs] at h2
    have := sizeToBytes_split hs
    simp only [sumUsed, Buddy.size_node]
    omega

theorem leafSpans_bounds {t : Buddy} (h : wfb t = true) :
    ∀ e ∈ leafSpans t, t.memStart ≤ e.1 ∧ e.1 + e.2 ≤ t.memStart + sizeToBytes t.size := by
  induction t with
  | leaf p len s =>
    intro e he
    simp only [leafSpans, List.mem_singleton] at he
    subst he
    simp
  | node p len s l r ihl ihr =>
    rw [wfb_node] at h
    obtain ⟨hs, _, hlb, hls, hrb, hrs, hwl, hwr⟩ := h
    have hsum := sizeToBytes_split hs
    intro e he
    simp only [leafSpans, List.mem_append] at he
    rcases he with he | he
    · have := ihl hwl e he
      rw [hlb, hls] at this
      simp only [Buddy.memStart_node, Buddy.size_node]
      omega
    · have := ihr hwr e he
      rw [hrb, hrs] at this
      simp only [Buddy.memStart_node, Buddy.size_node]
      omega

theorem leafSpans_pairwise : ∀ t, wfb t = true →
    List.Pairwise (fun x y : Nat × Nat => x.1 + x.2 ≤ y.1) (leafSpans t) := by
  intro t
  induction t with
  | leaf p len s => intro _; simp [leafSpans]
  | node p len s l r ihl ihr =>
    intro h
    have h' := h
    rw [wfb_node] at h'
    obtain ⟨hs, _, hlb, hls, hrb, hrs, hwl, hwr⟩ := h'
    simp only [leafSpans]
    rw [List.pairwise_append]
    refine ⟨ihl hwl, ihr hwr, ?_⟩
    intro x hx y hy
    obtain ⟨_, hx2⟩ := leafSpans_bounds hwl x hx
    obtain ⟨hy1, _⟩ := leafSpans_bounds hwr y hy
    rw [hlb, hls] at hx2
    rw [hrb] at hy1
    omega

/-! ### Iterated release -/

theorem filter_idem {α : Type} {xs : List α} {f : α → Bool} :
    (xs.filter f).filter f = xs.filter f := by
  induction xs with
  | nil => rfl
  | cons x xs ih =>
    by_cases h : f x <;> simp [List.filter_cons, h, ih]

@[simp] theorem releaseList_nil {t : Buddy} : releaseList t [] = t := rfl

theorem releaseList_cons {t : Buddy} {a : Nat} {bs : List Nat} :
    releaseList t (a :: bs) = releaseList (release t a).2 bs := rfl

theorem releaseList_wf : ∀ bs : List Nat, ∀ t, wfb t = true →
    wfb (releaseList t bs) = true := by
  intro bs
  induction bs with
  | nil => intro t h; simpa using h
  | cons a bs ih =>
    intro t h
    rw [releaseList_cons]
    exact ih _ (release_wf a t h)

theorem releaseList_maxMerged : ∀ bs : List Nat, ∀ t, maxMergedB t = true →
    maxMergedB (releaseList t bs) = true := by
  intro bs
  induction bs with
  | nil => intro t h; simpa using h
  | cons a bs ih =>
    intro t h
    rw [releaseList_cons]
    exact ih _ (release_maxMerged a t h)

theorem releaseList_fields : ∀ bs : List Nat, ∀ t,
    (releaseList t bs).memStart = t.memStart ∧ (releaseList t bs).size = t.size := by
  intro bs
  induction bs with
  | nil => intro t; exact ⟨rfl, rfl⟩
  | cons a bs ih =>
    intro t
    rw [releaseList_cons]
    obtain ⟨f1, f2⟩ := release_fields t a
    obtain ⟨g1, g2⟩ := ih (release t a).2
    exact ⟨g1.trans f1, g2.trans f2⟩

theorem releaseList_occ : ∀ bs : List Nat, ∀ t, wfb t = true →
    occupiedLeaves (releaseList t bs) =
      (occupiedLeaves t).filter (fun e => decide (¬ e.1 ∈ bs)) := by
  intro bs
  induction bs with
  | nil =>
    intro t _
    rw [releaseList_nil]
    have : (fun e : Nat × Nat × Nat => decide (¬ e.1 ∈ ([] : List Nat))) = fun _ => true := by
      funext e
      simp
    rw [this, List.filter_true]
  | cons a bs ih =>
    intro t hw
    rw [releaseList_cons, ih _ (release_wf a t hw), release_occ a t hw, List.filter_filter]
    have : (fun e : Nat × Nat × Nat => decide (¬ e.1 ∈ bs) && decide (e.1 ≠ a)) =
        fun e => decide (¬ e.1 ∈ a :: bs) := by
      funext e
      by_cases h1 : e.1 = a <;> by_cases h2 : e.1 ∈ bs <;> simp [h1, h2]
    rw [this]

/-! ### Dyadic geometry: a fully released aligned region is covered by a free leaf -/

theorem sizeToBytes_dvd {m n : Nat} (h : m ≤ n) :
    sizeToBytes n = sizeToBytes m * 2 ^ (n - m) := by
  rw [sizeToBytes, sizeToBytes, mul_assoc, ← pow_add]
  congr 2
  omega

theorem node_has_occupied : ∀ u, wfb u = true → maxMergedB u = true →
    occupiedLeaves u = [] → u.isTerminal = false := by
  intro u
  induction u with
  | leaf _ _ _ => intro _ _ _; rfl
  | node p len s l r ihl ihr =>
    intro hw hm hocc
    rw [wfb_node] at hw
    obtain ⟨_, _, _, _, _, _, hwl, hwr⟩ := hw
    rw [maxMergedB_node] at hm
    obtain ⟨hcond, hml, hmr⟩ := hm
    simp only [occupiedLeaves, List.append_eq_nil] at hocc
    obtain ⟨hol, hor⟩ := hocc
    have hlt := ihl hwl hml hol
    have hrt := ihr hwr hmr hor
    have hll : l.getLength = 0 := by
      cases l with
      | leaf _ lenl _ =>
        simp only [occupiedLeaves] at hol
        by_cases h0 : lenl = 0
        · simpa using h0
        · simp [h0] at hol
      | node _ _ _ _ _ => simp at hlt
    have hrl : r.getLength = 0 := by
      cases r with
      | leaf _ lenr _ =>
        simp only [occupiedLeaves] at hor
        by_cases h0 : lenr = 0
        · simpa using h0
        · simp [h0] at hor
      | node _ _ _ _ _ => simp at hrt
    exact absurd ⟨hrl, hrt, hll, hlt⟩ hcond

theorem subtree_aligned : ∀ q : List Bool, ∀ t, wfb t = true → validPath t q = true →
    ∃ j, (getAt t q).memStart = t.memStart + j * sizeToBytes (getAt t q).size ∧
      (getAt t q).size ≤ t.size ∧
      (getAt t q).memStart + sizeToBytes (getAt t q).size ≤
        t.memStart + sizeToBytes t.size := by
  intro q
  induction q with
  | nil =>
    intro t _ _
    refine ⟨0, ?_, ?_, ?_⟩ <;> simp
  | cons d q1 ih =>
    intro t hw hv
    cases t with
    | leaf _ _ _ => simp at hv
    | node p len s l r =>
      rw [wfb_node] at hw
      obtain ⟨hs, _, hlb, hls, hrb, hrs, hwl, hwr⟩ := hw
      have hsum := sizeToBytes_split hs
      cases d
      · simp only [validPath_cons_false] at hv
        simp only [getAt_cons_false]
        obtain ⟨j, e1, e2, e3⟩ := ih l hwl hv
        refine ⟨j, ?_, ?_, ?_⟩
        · rw [e1, hlb]
          rfl
        · rw [hls] at e2
          simp only [Buddy.size_node]
          omega
        · rw [hlb, hls] at e3
          simp only [Buddy.memStart_node, Buddy.size_node]
          omega
      · simp only [validPath_cons_true] at hv
        simp only [getAt_cons_true]
        obtain ⟨j, e1, e2, e3⟩ := ih r hwr hv
        have hmle : (getAt r q1).size ≤ s - 1 := by rw [← hrs]; exact e2
        have hdvd : sizeToBytes (s - 1) =
            sizeToBytes (getAt r q1).size * 2 ^ (s - 1 - (getAt r q1).size) :=
          sizeToBytes_dvd hmle
        refine ⟨2 ^ (s - 1 - (getAt r q1).size) + j, ?_, ?_, ?_⟩
        · have hcomm : 2 ^ (s - 1 - (getAt r q1).size) * sizeToBytes (getAt r q1).size =
              sizeToBytes (s - 1) := by rw [hdvd]; ring
          rw [e1, hrb]
          simp only [Buddy.memStart_node]
          rw [add_mul, hcomm]
          omega
        · simp only [Buddy.size_node]
          omega
        · rw [hrb, hrs] at e3
          simp only [Buddy.memStart_node, Buddy.size_node]
          omega

theorem occ_subtree_ranges : ∀ q : List Bool, ∀ t, wfb t = true → validPath t q = true →
    ∀ e ∈ occupiedLeaves t,
      e ∈ occupiedLeaves (getAt t q) ∨
      e.1 + sizeToBytes e.2.2 ≤ (getAt t q).memStart ∨
      (getAt t q).memStart + sizeToBytes (getAt t q).size ≤ e.1 := by
  intro q
  induction q with
  | nil =>
    intro t _ _ e he
    left
    simpa using he
  | cons d q1 ih =>
    intro t hw hv e he
    cases t with
    | leaf _ _ _ => simp at hv
    | node p len s l r =>
      rw [wfb_node] at hw
      obtain ⟨hs, _, hlb, hls, hrb, hrs, hwl, hwr⟩ := hw
      have hsum := sizeToBytes_split hs
      simp only [occupiedLeaves, List.mem_append] at he
      cases d
      · simp only [validPath_cons_false] at hv
        simp only [getAt_cons_false]
        rcases he with he | he
        · exact ih l hwl hv e he
        · right
          obtain ⟨j, _, e2, e3⟩ := subtree_aligned q1 l hwl hv
          obtain ⟨b1, _, _⟩ := occ_mem_bounds hwr e he
          rw [hrb] at b1
          rw [hlb, hls] at e3
          right
          omega
      · simp only [validPath_cons_true] at hv
        simp only [getAt_cons_true]
        rcases he with he | he
        · right
          obtain ⟨j, e1, e2, e3⟩ := subtree_aligned q1 r hwr hv
          obtain ⟨_, b2, _⟩ := occ_mem_bounds hwl e he
          rw [hlb, hls] at b2
          rw [hrb] at e1
          left
          have : p + sizeToBytes (s - 1) ≤ (getAt r q1).memStart := by
            rw [e1]
            omega
          omega
        · exact ih r hwr hv e he

theorem covering_free : ∀ u, wfb u = true → maxMergedB u = true →
    ∀ m j, m ≤ u.size →
      u.memStart + j * sizeToBytes m + sizeToBytes m ≤ u.memStart + sizeToBytes u.size →
      (∀ e ∈ occupiedLeaves u,
        e.1 + sizeToBytes e.2.2 ≤ u.memStart + j * sizeToBytes m ∨
        u.memStart + j * sizeToBytes m + sizeToBytes m ≤ e.1) →
      ∃ e ∈ freeSpans u, e.1 ≤ u.memStart + j * sizeToBytes m ∧
        u.memStart + j * sizeToBytes m + sizeToBytes m ≤ e.1 + e.2 := by
  intro u
  induction u with
  | leaf p len s =>
    intro _ _ m j hm hofs hdisj
    simp only [Buddy.memStart_leaf, Buddy.size_leaf] at hofs hdisj ⊢
    by_cases h0 : len = 0
    · refine ⟨(p, sizeToBytes s), by simp [freeSpans, h0], by omega, by omega⟩
    · have hmem : (p, len, s) ∈ occupiedLeaves (Buddy.leaf p len s) := by
        simp [occupiedLeaves, h0]
      have := hdisj (p, len, s) hmem
      have hpos1 : 0 < sizeToBytes s := sizeToBytes_pos s
      have hpos2 : 0 < sizeToBytes m := sizeToBytes_pos m
      simp only at this
      omega
  | node p len s l r ihl ihr =>
    intro hw hm m j hms hofs hdisj
    have hwn := hw
    rw [wfb_node] at hwn
    obtain ⟨hs, hlen, hlb, hls, hrb, hrs, hwl, hwr⟩ := hwn
    rw [maxMergedB_node] at hm
    obtain ⟨_, hml, hmr⟩ := hm
    have hsum := sizeToBytes_split hs
    simp only [Buddy.memStart_node, Buddy.size_node] at hms hofs hdisj ⊢
    by_cases hmeq : m = s
    · subst hmeq
      have hj0 : j = 0 := by
        have := sizeToBytes_pos m
        by_contra hne
        have : 1 ≤ j := by omega
        have : 1 * sizeToBytes m ≤ j * sizeToBytes m :=
          Nat.mul_le_mul_right _ this
        omega
      subst hj0
      have hocc : occupiedLeaves (Buddy.node p len m l r) = [] := by
        rw [List.eq_nil_iff_forall_not_mem]
        intro e he
        obtain ⟨b1, b2, _⟩ := occ_mem_bounds hw e he
        have hpos : 0 < sizeToBytes e.2.2 := sizeToBytes_pos _
        have := hdisj e he
        simp only [Buddy.memStart_node, Buddy.size_node] at b1 b2
        omega
      have := node_has_occupied _ hw (by rw [maxMergedB_node]; exact ⟨‹_›, hml, hmr⟩) hocc
      simp at this
    · have hmlt : m ≤ s - 1 := by omega
      have hdvd : sizeToBytes (s - 1) = sizeToBytes m * 2 ^ (s - 1 - m) :=
        sizeToBytes_dvd hmlt
      set c := 2 ^ (s - 1 - m) with hc
      by_cases hj : j < c
      · have hfit : (j + 1) * sizeToBytes m ≤ sizeToBytes (s - 1) := by
          rw [hdvd]
          calc (j + 1) * sizeToBytes m ≤ c * sizeToBytes m :=
                Nat.mul_le_mul_right _ (by omega)
          _ = sizeToBytes m * c := by ring
        have hofs' : l.memStart + j * sizeToBytes m + sizeToBytes m ≤
            l.memStart + sizeToBytes l.size := by
          rw [hlb, hls]
          have : j * sizeToBytes m + sizeToBytes m = (j + 1) * sizeToBytes m := by ring
          omega
        have hdisj' : ∀ e ∈ occupiedLeaves l,
            e.1 + sizeToBytes e.2.2 ≤ l.memStart + j * sizeToBytes m ∨
            l.memStart + j * sizeToBytes m + sizeToBytes m ≤ e.1 := by
          intro e he
          have := hdisj e (by simp only [occupiedLeaves, List.mem_append]; exact Or.inl he)
          rw [hlb]
          exact this
        obtain ⟨e, he, he1, he2⟩ := ihl hwl hml m j (by rw [hls]; omega) hofs' hdisj'
        rw [hlb] at he1 he2
        exact ⟨e, by simp only [freeSpans, List.mem_append]; exact Or.inl he, he1, he2⟩
      · have hcj : c ≤ j := by omega
        have hsplitj : j * sizeToBytes m =
            sizeToBytes (s - 1) + (j - c) * sizeToBytes m := by
          rw [hdvd]
          have : j = c + (j - c) := by omega
          calc j * sizeToBytes m = (c + (j - c)) * sizeToBytes m := by rw [← this]
          _ = c * sizeToBytes m + (j - c) * sizeToBytes m := by ring
          _ = sizeToBytes m * c + (j - c) * sizeToBytes m := by ring
        have hofs' : r.memStart + (j - c) * sizeToBytes m + sizeToBytes m ≤
            r.memStart + sizeToBytes r.size := by
          rw [hrb, hrs]
          omega
        have hdisj' : ∀ e ∈ occupiedLeaves r,
            e.1 + sizeToBytes e.2.2 ≤ r.memStart + (j - c) * sizeToBytes m ∨
            r.memStart + (j - c) * sizeToBytes m + sizeToBytes m ≤ e.1 := by
          intro e he
          have := hdisj e (by simp only [occupiedLeaves, List.mem_append]; exact Or.inr he)
          rw [hrb]
          omega
        obtain ⟨e, he, he1, he2⟩ := ihr hwr hmr m (j - c) (by rw [hrs]; omega) hofs' hdisj'
        rw [hrb] at he1 he2
        refine ⟨e, by simp only [freeSpans, List.mem_append]; exact Or.inr he, by omega, by omega⟩

/-! ### Remaining glue lemmas -/

theorem wfb_splitNodesFree : ∀ t, wfb t = true → splitNodesFree t = true := by
  intro t
  induction t with
  | leaf _ _ _ => intro _; rfl
  | node p len s l r ihl ihr =>
    intro h
    rw [wfb_node] at h
    obtain ⟨_, hlen, _, _, _, _, hwl, hwr⟩ := h
    simp [splitNodesFree, hlen, ihl hwl, ihr hwr]

theorem allocate_isSome_of_checkPath {t : Buddy} {b : Nat} {q : List Bool}
    (h : checkPath t b = some q) : (allocate t b).1.isSome = true := by
  rw [allocate, h]
  rfl

theorem allocate_fail_id {t : Buddy} {b : Nat} (h : (allocate t b).1 = none) :
    (allocate t b).2 = t := by
  rw [allocate] at h ⊢
  cases hcp : checkPath t b with
  | none => rfl
  | some q =>
    rw [hcp] at h
    simp at h

/-!
### The claims

Each claim of the specification is settled by exactly one theorem below
(plus a witness when the theorem carries hypotheses, and a
counterexample when the claim as literally stated fails on the code).
-/

/-- Claim C1, counterexample.  The claim says allocating exactly
`size_for_order(k)` bytes places the data in a leaf of capacity exactly
`MIN_BLOCK_SIZE * 2^k`.  On a fresh order-4 tree, allocating
`sizeToBytes 0 = 65536` bytes succeeds at address 0, but the leaf
holding the data has capacity `sizeToBytes 1 = 131072`, twice the
requested size: the split loop requires capacity strictly greater than
`2 * bytes` to keep splitting, so it stops one order early on exact
powers. -/
theorem exact_fit_counterexample :
    (allocate (Buddy.leaf 0 0 4) (sizeToBytes 0)).1 = some 0 ∧
    leafCapAt ((allocate (Buddy.leaf 0 0 4) (sizeToBytes 0)).2) 0 ≠ some (sizeToBytes 0) ∧
    leafCapAt ((allocate (Buddy.leaf 0 0 4) (sizeToBytes 0)).2) 0 = some (2 * sizeToBytes 0) := by
  decide

/-- Claim C1, amended.  On the freshly constructed reference tree
(base 0, order 4), allocating `sizeToBytes k` bytes for any valid order
`k` succeeds and returns the region base, and the leaf the data lands
in has capacity `sizeToBytes (min (k+1) 4)`: exactly the requested
size only for `k = 4` (the root), and twice the requested size for
`k < 4`, because the `while (getMaxLength() > numBytes*2 && ...)` loop
of `Buddy::allocate` stops as soon as the capacity equals `2 * bytes`. -/
theorem exact_fit_amended :
    ∀ k : Nat, k < 5 →
      (allocate (Buddy.leaf 0 0 4) (sizeToBytes k)).1 = some 0 ∧
      leafCapAt ((allocate (Buddy.leaf 0 0 4) (sizeToBytes k)).2) 0 =
        some (sizeToBytes (min (k + 1) 4)) := by
  decide

/-- Witness for the amended claim C1 at `k = 0`. -/
theorem exact_fit_amended_witness :
    0 < 5 ∧
    ((allocate (Buddy.leaf 0 0 4) (sizeToBytes 0)).1 = some 0 ∧
      leafCapAt ((allocate (Buddy.leaf 0 0 4) (sizeToBytes 0)).2) 0 =
        some (sizeToBytes (min (0 + 1) 4))) :=
  ⟨by decide, exact_fit_amended 0 (by decide)⟩

/-- Claim C2, counterexample.  The claim says `release(p)` returns true
iff `p` is the base of a currently-occupied leaf, and that a second
release of the same address reports failure.  Both fail: on a fresh
tree (nothing occupied) releasing the region base returns true, and
after allocating 65536 bytes at address 0 and releasing it (which
merges the tree back to a single free leaf), releasing address 0 a
second time returns true again. -/
theorem release_counterexample :
    (release (Buddy.leaf 0 0 4) 0).1 = true ∧
    (release (release ((allocate (Buddy.leaf 0 0 4) 65536).2) 0).2 0).1 = true := by
  decide

/-- Claim C2, amended.  In every reachable tree state, `release(a)`
returns true iff `a` is the base address of some current unsplit leaf,
occupied or free — so a double free reports success whenever the
address is still a leaf base (for instance after the merges triggered
by the first release).  The second call still changes no `used_length`:
the list of occupied leaves after releasing the same address twice
equals the list after the first release. -/
theorem release_amended (t : Buddy) (h : Reachable t) (a : Nat) :
    ((release t a).1 = true ↔ a ∈ leafBases t) ∧
    occupiedLeaves (release (release t a).2 a).2 = occupiedLeaves (release t a).2 := by
  have hw := reachable_wf h
  refine ⟨release_true_iff a t hw, ?_⟩
  have hw1 : wfb (release t a).2 = true := release_wf a t hw
  rw [release_occ a _ hw1, release_occ a t hw, filter_idem]

/-- Witness for the amended claim C2 on a fresh tree at address 0. -/
theorem release_amended_witness :
    ((release (Buddy.leaf 0 0 4) 0).1 = true ↔ 0 ∈ leafBases (Buddy.leaf 0 0 4)) ∧
    occupiedLeaves (release (release (Buddy.leaf 0 0 4) 0).2 0).2 =
      occupiedLeaves (release (Buddy.leaf 0 0 4) 0).2 :=
  release_amended (Buddy.leaf 0 0 4) (Reachable.init 0 4) 0

/-- Claim C3, counterexample.  The claim says `bytesToSize` never
returns an order below 0.  It returns `-16` for a one-byte request
(and negative orders for every request of at most `2^15` bytes): the
loop finds the smallest power of two at least `numBytes` and subtracts
16 without clamping. -/
theorem bytesToSize_counterexample : bytesToSize 1 < 0 ∧ bytesToSize 1 = -16 := by
  decide

/-- Claim C3, amended.  For every request of at least one byte,
`bytesToSize b` is at least `-16` (not 0), it is exact in the sense
that `bytesToSize b ≤ s` iff a block of order `s` holds `b` bytes —
i.e. it is the smallest (possibly negative) integer order whose
capacity covers the request — and it is monotone non-decreasing. -/
theorem bytesToSize_amended (b : Nat) (hb : 1 ≤ b) :
    (-16 : Int) ≤ bytesToSize b ∧
    (∀ s : Nat, bytesToSize b ≤ (s : Int) ↔ b ≤ sizeToBytes s) ∧
    (∀ c : Nat, b ≤ c → bytesToSize b ≤ bytesToSize c) :=
  ⟨bytesToSize_nonneg_16 b, fun s => bytesToSize_le_iff b s, fun _ h => bytesToSize_mono h⟩

/-- Witness for the amended claim C3 at `b = 1`. -/
theorem bytesToSize_amended_witness :
    1 ≤ 1 ∧
    ((-16 : Int) ≤ bytesToSize 1 ∧
      (∀ s : Nat, bytesToSize 1 ≤ (s : Int) ↔ 1 ≤ sizeToBytes s) ∧
      (∀ c : Nat, 1 ≤ c → bytesToSize 1 ≤ bytesToSize c)) :=
  ⟨le_refl 1, bytesToSize_amended 1 (le_refl 1)⟩

/-- Claim C4, evaluation at the failing input.  A zero-byte request is
not rejected: on a fresh order-4 tree `allocate(0, data)` finds the
root as candidate, splits all the way down to order 0, stores
`used_length = 0` in the resulting leaf (which therefore still looks
free) and returns the region base address — and a subsequent one-byte
allocation returns the very same address.  Requests larger than the
root's capacity are, by contrast, correctly rejected with no change to
the tree. -/
theorem allocate_zero_bug :
    (allocate (Buddy.leaf 0 0 4) 0).1 = some 0 ∧
    (allocate (Buddy.leaf 0 0 4) 0).2 ≠ Buddy.leaf 0 0 4 ∧
    (allocate ((allocate (Buddy.leaf 0 0 4) 0).2) 1).1 = some 0 ∧
    (allocate (Buddy.leaf 0 0 4) (MAX_MEMORY_OFFSET + 1)).1 = none ∧
    (allocate (Buddy.leaf 0 0 4) (MAX_MEMORY_OFFSET + 1)).2 = Buddy.leaf 0 0 4 := by
  decide

/-- Claim C5.  In every reachable tree state, `Buddy::check` returns
exactly the left-most unsplit, unoccupied leaf whose capacity is at
least the requested size, and nothing when no such leaf exists:
`candidates` lists the paths of all qualifying leaves in left-to-right
order, and `check` is the head of that list. -/
theorem check_leftmost (t : Buddy) (h : Reachable t) (numBytes : Nat) :
    check t numBytes = ((candidates t numBytes).head?).map (fun q => getAt t q) := by
  rw [check_eq_getAt_checkPath t, checkPath_eq_head_candidates t (reachable_wf h)]

/-- Witness for claim C5 on a fresh tree. -/
theorem check_leftmost_witness :
    check (Buddy.leaf 0 0 4) 3 =
      ((candidates (Buddy.leaf 0 0 4) 3).head?).map (fun q => getAt (Buddy.leaf 0 0 4) q) :=
  check_leftmost (Buddy.leaf 0 0 4) (Reachable.init 0 4) 3

/-- Claim C6, counterexample.  The claim quantifies over every
previously split node of every reachable state.  A zero-byte
allocation on a fresh tree splits the left spine down to order 0 and
then marks the final leaf free, leaving a split order-1 node with no
occupied leaf below it; releasing all occupied leaves under that node
releases nothing, so the node stays split instead of being restored to
an unsplit leaf. -/
theorem merge_restores_counterexample :
    (getAt ((allocate (Buddy.leaf 0 0 4) 0).2) [false, false, false]).isTerminal = true ∧
    occupiedLeaves (getAt ((allocate (Buddy.leaf 0 0 4) 0).2) [false, false, false]) = [] ∧
    (getAt
      (releaseList ((allocate (Buddy.leaf 0 0 4) 0).2)
        ((occupiedLeaves
          (getAt ((allocate (Buddy.leaf 0 0 4) 0).2) [false, false, false])).map
            (fun e => e.1)))
      [false, false, false]).isTerminal = true := by
  decide

/-- Claim C6, amended.  In every state reachable when allocations
request at least one byte (as the demo driver guarantees), take any
split node, at path `q`.  After issuing a top-level `release` for the
base address of every occupied leaf below it, the cascading merges
leave a free leaf whose block covers the node's entire block (the node
itself when its ancestors stay split, or a merged ancestor when the
frees cascade further), and a subsequent allocation of the node's full
capacity succeeds. -/
theorem merge_restores_amended (t : Buddy) (h : ReachablePos t) (q : List Bool)
    (hv : validPath t q = true) (hsplit : (getAt t q).isTerminal = true) :
    (∃ e ∈ freeSpans
        (releaseList t ((occupiedLeaves (getAt t q)).map (fun x => x.1))),
      e.1 ≤ (getAt t q).memStart ∧
      (getAt t q).memStart + sizeToBytes (getAt t q).size ≤ e.1 + e.2) ∧
    (allocate (releaseList t ((occupiedLeaves (getAt t q)).map (fun x => x.1)))
      (sizeToBytes (getAt t q).size)).1.isSome = true := by
  have hw : wfb t = true := reachable_wf (reachablePos_reachable h)
  have hm : maxMergedB t = true := reachablePos_maxMerged h
  set N := getAt t q with hN
  set bs := (occupiedLeaves N).map (fun x => x.1) with hbs
  set t2 := releaseList t bs with ht2
  have hw2 : wfb t2 = true := releaseList_wf bs t hw
  have hm2 : maxMergedB t2 = true := releaseList_maxMerged bs t hm
  obtain ⟨f1, f2⟩ := releaseList_fields bs t
  obtain ⟨j, e1, e2, e3⟩ := subtree_aligned q t hw hv
  have hocc2 : occupiedLeaves t2 =
      (occupiedLeaves t).filter (fun e => decide (¬ e.1 ∈ bs)) :=
    releaseList_occ bs t hw
  have hdisj : ∀ e ∈ occupiedLeaves t2,
      e.1 + sizeToBytes e.2.2 ≤ t2.memStart + j * sizeToBytes N.size ∨
      t2.memStart + j * sizeToBytes N.size + sizeToBytes N.size ≤ e.1 := by
    intro e he
    rw [hocc2, List.mem_filter] at he
    obtain ⟨het, hnotbs⟩ := he
    have hnotbs2 : ¬ e.1 ∈ bs := by simpa using hnotbs
    rcases occ_subtree_ranges q t hw hv e het with hin | hout1 | hout2
    · exact absurd (List.mem_map.mpr ⟨e, hin, rfl⟩) hnotbs2
    · left
      rw [f1, ← e1]
      exact hout1
    · right
      rw [f1, ← e1]
      exact hout2
  have hm_le : N.size ≤ t2.size := by rw [f2]; exact e2
  have hofs : t2.memStart + j * sizeToBytes N.size + sizeToBytes N.size ≤
      t2.memStart + sizeToBytes t2.size := by
    rw [f1, f2, ← e1]
    exact e3
  obtain ⟨e, he, he1, he2⟩ := covering_free t2 hw2 hm2 N.size j hm_le hofs hdisj
  rw [f1, ← e1] at he1 he2
  refine ⟨⟨e, he, he1, he2⟩, ?_⟩
  have hble : sizeToBytes N.size ≤ e.2 := by omega
  have hne : candidates t2 (sizeToBytes N.size) ≠ [] :=
    candidates_ne_nil_of_freeSpan t2 e he hble
  have hcpeq : checkPath t2 (sizeToBytes N.size) =
      (candidates t2 (sizeToBytes N.size)).head? :=
    checkPath_eq_head_candidates t2 hw2
  cases hc : candidates t2 (sizeToBytes N.size) with
  | nil => exact absurd hc hne
  | cons c cs =>
    exact allocate_isSome_of_checkPath (by rw [hcpeq, hc]; rfl)

/-- Witness for the amended claim C6: after allocating 65536 bytes on a
fresh tree the root is split; releasing the base of every occupied leaf
under the root merges everything back, leaving a free block covering
the whole region, and an allocation of the full region capacity then
succeeds. -/
theorem merge_restores_amended_witness :
    (∃ e ∈ freeSpans
        (releaseList ((allocate (Buddy.leaf 0 0 4) 65536).2)
          ((occupiedLeaves (getAt ((allocate (Buddy.leaf 0 0 4) 65536).2) [])).map
            (fun x => x.1))),
      e.1 ≤ (getAt ((allocate (Buddy.leaf 0 0 4) 65536).2) []).memStart ∧
      (getAt ((allocate (Buddy.leaf 0 0 4) 65536).2) []).memStart +
        sizeToBytes (getAt ((allocate (Buddy.leaf 0 0 4) 65536).2) []).size ≤ e.1 + e.2) ∧
    (allocate
      (releaseList ((allocate (Buddy.leaf 0 0 4) 65536).2)
        ((occupiedLeaves (getAt ((allocate (Buddy.leaf 0 0 4) 65536).2) [])).map
          (fun x => x.1)))
      (sizeToBytes (getAt ((allocate (Buddy.leaf 0 0 4) 65536).2) []).size)).1.isSome =
      true :=
  merge_restores_amended ((allocate (Buddy.leaf 0 0 4) 65536).2)
    (ReachablePos.alloc 65536 (by decide) (ReachablePos.init 0 4)) []
    (by decide) (by decide)

/-- Claim C7.  In every reachable tree state the total number of bytes
in use over all leaves never exceeds the region size (the root block's
capacity), and the blocks `[base, base + capacity)` of the leaves are
pairwise disjoint — listed left to right, each leaf's block ends at or
before the next one begins — so no address is owned by two leaves. -/
theorem no_double_counting (t : Buddy) (h : Reachable t) :
    sumUsed t ≤ sizeToBytes t.size ∧
    List.Pairwise (fun x y : Nat × Nat => x.1 + x.2 ≤ y.1) (leafSpans t) :=
  ⟨sumUsed_le_cap t (reachable_wf h), leafSpans_pairwise t (reachable_wf h)⟩

/-- Witness for claim C7 on a fresh tree. -/
theorem no_double_counting_witness :
    sumUsed (Buddy.leaf 0 0 4) ≤ sizeToBytes (Buddy.leaf 0 0 4).size ∧
    List.Pairwise (fun x y : Nat × Nat => x.1 + x.2 ≤ y.1)
      (leafSpans (Buddy.leaf 0 0 4)) :=
  no_double_counting (Buddy.leaf 0 0 4) (Reachable.init 0 4)

/-- Claim C8.  Failures are returned as values — `allocate` yields
`none` and `release` yields `false`, both total functions — and are
atomic: in every reachable state, an `allocate` that produces no
address leaves the tree exactly as it was (no node is split, no
`used_length` changes), and a `release` that returns false changes no
`used_length` (the list of occupied leaves, with their lengths, is
exactly the one before the call). -/
theorem failure_is_atomic (t : Buddy) (h : Reachable t) (numBytes a : Nat) :
    ((allocate t numBytes).1 = none → (allocate t numBytes).2 = t) ∧
    ((release t a).1 = false → occupiedLeaves (release t a).2 = occupiedLeaves t) := by
  have hw := reachable_wf h
  refine ⟨fun h1 => allocate_fail_id h1, fun h2 => ?_⟩
  have hnot : ¬ a ∈ leafBases t := by
    intro hmem
    have := (release_true_iff a t hw).mpr hmem
    rw [h2] at this
    exact absurd this (by simp)
  rw [release_occ a t hw]
  exact filter_ne_of_forall (fun e he => fun heq =>
    hnot (heq ▸ occ_base_mem_leafBases e he))

/-- Witness for claim C8 on a fresh tree with a bogus address. -/
theorem failure_is_atomic_witness :
    ((allocate (Buddy.leaf 0 0 4) 7).1 = none → (allocate (Buddy.leaf 0 0 4) 7).2 =
      Buddy.leaf 0 0 4) ∧
    ((release (Buddy.leaf 0 0 4) 5).1 = false →
      occupiedLeaves (release (Buddy.leaf 0 0 4) 5).2 =
        occupiedLeaves (Buddy.leaf 0 0 4)) :=
  failure_is_atomic (Buddy.leaf 0 0 4) (Reachable.init 0 4) 7 5

/-- Claim C9.  In every reachable tree state, every split node carries
`memLength = 0`: blocks are only ever split while free, and nothing
writes a nonzero length into a split node, so the stale `used_length`
field of internal nodes is in fact always zero. -/
theorem split_nodes_zero (t : Buddy) (h : Reachable t) : splitNodesFree t = true :=
  wfb_splitNodesFree t (reachable_wf h)

/-- Witness for claim C9 on a state with actual split nodes. -/
theorem split_nodes_zero_witness :
    splitNodesFree ((allocate (Buddy.leaf 0 0 4) 65536).2) = true :=
  split_nodes_zero ((allocate (Buddy.leaf 0 0 4) 65536).2)
    (Reachable.alloc 65536 (Reachable.init 0 4))

/-- Claim C10, counterexample.  A completed zero-byte allocation on a
fresh tree leaves a split node whose two children are both free unsplit
leaves, so the tree is not maximally merged; a subsequent `release`
with a bogus address (1) then returns false yet changes the tree — its
merge checks find the eligible pair and merge it (here the cascade
collapses the whole spine back to the root leaf). -/
theorem max_merge_counterexample :
    maxMergedB ((allocate (Buddy.leaf 0 0 4) 0).2) = false ∧
    (release ((allocate (Buddy.leaf 0 0 4) 0).2) 1).1 = false ∧
    (release ((allocate (Buddy.leaf 0 0 4) 0).2) 1).2 ≠
      (allocate (Buddy.leaf 0 0 4) 0).2 := by
  decide

/-- Claim C10, amended.  In every state reachable when allocations
request at least one byte, no split node has two children that are
both free unsplit leaves (the tree is maximally merged after every
completed call), and consequently a `release` that returns false finds
no merge-eligible pair and leaves the tree completely unchanged. -/
theorem max_merge_amended (t : Buddy) (h : ReachablePos t) :
    maxMergedB t = true ∧
    ∀ a : Nat, (release t a).1 = false → (release t a).2 = t :=
  ⟨reachablePos_maxMerged h,
    fun a hf => release_fail_id a t (reachable_wf (reachablePos_reachable h))
      (reachablePos_maxMerged h) hf⟩

/-- Witness for the amended claim C10 after a one-byte allocation. -/
theorem max_merge_amended_witness :
    maxMergedB ((allocate (Buddy.leaf 0 0 4) 1).2) = true ∧
    ∀ a : Nat, (release ((allocate (Buddy.leaf 0 0 4) 1).2) a).1 = false →
      (release ((allocate (Buddy.leaf 0 0 4) 1).2) a).2 =
        (allocate (Buddy.leaf 0 0 4) 1).2 :=
  max_merge_amended ((allocate (Buddy.leaf 0 0 4) 1).2)
    (ReachablePos.alloc 1 (by decide) (ReachablePos.init 0 4))
